import Mathlib

/-!
Verification of the gxai structured-I/O inference engine (src/main.ts).

Strings are modelled as `List Char`.  JavaScript numbers are modelled by
their printed decimal numeral (floating point itself is not shallowly
embeddable; every number that occurs in the properties below is determined
by its decimal representation).
-/

namespace GXAI

/-- JavaScript whitespace as matched by `\s` / `String.prototype.trim`
(ASCII portion; the non-ASCII space code points never occur in the
properties below). -/
def jsWs (c : Char) : Bool :=
  c = ' ' || c = '\t' || c = '\n' || c = '\r' ||
  c = Char.ofNat 11 || c = Char.ofNat 12

/-- Model of the JS string trim operation. -/
def trimC (l : List Char) : List Char :=
  ((l.dropWhile jsWs).reverse.dropWhile jsWs).reverse

mutual
/-- The value trees handled by the XML codec of src/main.ts: JS objects
whose leaves are strings, booleans and numbers.  (`undefined`/`null`
cannot occur in the value domain of the round-trip claim, so the source's
null-elision filter in `objToXml` is the identity here; arrays are out of
scope of the claim.)  A mutual inductive is used instead of a nested
`List` so that all recursions below are structural. -/
inductive JVal where
  | str (s : List Char)
  | jbool (b : Bool)
  | num (rep : List Char)
  | obj (fields : JFields)
inductive JFields where
  | nil
  | cons (key : List Char) (value : JVal) (rest : JFields)
end

deriving instance DecidableEq for JVal, JFields

/-- Tag-name characters allowed by sanitizeTagName (src/main.ts line 73). -/
def tagChar (c : Char) : Bool :=
  ('a' ≤ c && c ≤ 'z') || ('A' ≤ c && c ≤ 'Z') || ('0' ≤ c && c ≤ '9') || c = '_'

/-- Function sanitizeTagName (src/main.ts lines 72-74): replace every character
outside `[a-zA-Z0-9_]` by `_`, then, if the first character is not a
letter, prefix `tag_` (the JS replacement `tag_$&` keeps the character). -/
def sanitizeTagName (name : List Char) : List Char :=
  let repl := name.map (fun c => if tagChar c then c else '_')
  match repl with
  | [] => []
  | c :: cs => if c.isAlpha then c :: cs else 't' :: 'a' :: 'g' :: '_' :: c :: cs

/-- JS String(value) conversion for the leaf values. -/
def leafStr : JVal → List Char
  | .str s => s
  | .jbool true => 't' :: 'r' :: 'u' :: 'e' :: []
  | .jbool false => 'f' :: 'a' :: 'l' :: 's' :: 'e' :: []
  | .num r => r
  | .obj _ => []

/-- Function wrapTag (src/main.ts lines 76-79). -/
def wrapTag (tag content : List Char) : List Char :=
  '<' :: sanitizeTagName tag ++ '>' :: content ++ '<' :: '/' :: sanitizeTagName tag ++ ['>']

mutual
/-- Function objToXml (src/main.ts lines 71-102), restricted to the array-free
value domain above.  Leaf entries use the raw key (source line 95), object
entries go through `wrapTag` and hence `sanitizeTagName`. -/
def objToXml : JVal → Option (List Char) → List Char
  | .obj fields, parentKey =>
      if fields = .nil then
        wrapTag (parentKey.getD ('e' :: 'm' :: 'p' :: 't' :: 'y' :: [])) []
      else
        let content := entriesContent fields
        match parentKey with
        | some p => wrapTag p content
        | none => content
  | v, parentKey =>
      wrapTag (parentKey.getD ('v' :: 'a' :: 'l' :: 'u' :: 'e' :: [])) (leafStr v)

/-- Body entries.map(...).join("") of `objToXml`'s object branch. -/
def entriesContent : JFields → List Char
  | .nil => []
  | .cons k v rest =>
      (match v with
       | .obj _ => objToXml v (some k)
       | w => '<' :: k ++ '>' :: leafStr w ++ '<' :: '/' :: k ++ ['>']) ++ entriesContent rest
end

/-- Top-level encoding entry point: objToXml(obj) with no parent key. -/
def objToXmlTop (v : JVal) : List Char := objToXml v none

/-- Close-tag text for a given tag name. -/
def closeTagOf (name : List Char) : List Char := '<' :: '/' :: name ++ ['>']

/-- Split a character list at the first occurrence of the pattern:
returns the part before the occurrence and the part after it. -/
def splitAtFirst (pat : List Char) : List Char → Option (List Char × List Char)
  | [] => if pat.isPrefixOf ([] : List Char) then some ([], []) else none
  | c :: cs =>
      if pat.isPrefixOf (c :: cs) then some ([], (c :: cs).drop pat.length)
      else (splitAtFirst pat cs).map (fun p => (c :: p.1, p.2))

/-- Characters admissible in the tag-name capture group of the scanning
regex of xmlToObj (src/main.ts line 112): everything except the closing
angle bracket, whitespace and the slash. -/
def isNameChar (c : Char) : Bool := !(c = '>' || c = '/' || jsWs c)

/-- Backtracking over the greedy tag-name group: the regex first tries the
maximal run of name characters, then shorter nonempty prefixes, keeping
the first candidate whose close tag occurs in the remaining text (lazy
content match). -/
def tryNames (gmax afterGt : List Char) : Nat → Option (List Char × List Char × List Char)
  | 0 => none
  | l + 1 =>
      let name := gmax.take (l + 1)
      match splitAtFirst (closeTagOf name) afterGt with
      | some (content, rest) => some (name, content, rest)
      | none => tryNames gmax afterGt l

/-- One attempted regex match at the current position.  A match requires a
leading opening angle bracket, a later closing angle bracket (the
character classes before it all exclude it, so the consumed one is the
first), a nonempty tag-name group, and a later occurrence of the close
tag; on success it yields the name, the (lazily minimal) content and the
text after the whole match. -/
def matchAt : List Char → Option (List Char × List Char × List Char)
  | '<' :: rest =>
      match splitAtFirst ['>'] rest with
      | none => none
      | some (between, afterGt) =>
          let gmax := between.takeWhile isNameChar
          if gmax = [] then none else tryNames gmax afterGt gmax.length
  | _ => none

/-- The global exec loop of the scanning regex: try a match at each
position, left to right; after a match continue right after it.  Fueled
to keep the recursion structural; one unit of fuel is spent per position
or match, so any fuel exceeding the input length is enough. -/
def tagMatchesF : Nat → List Char → List (List Char × List Char)
  | 0, _ => []
  | _ + 1, [] => []
  | f + 1, c :: cs =>
      match matchAt (c :: cs) with
      | some (n, content, rest) => (n, content) :: tagMatchesF f rest
      | none => tagMatchesF f cs

/-- All matches of the scanning regex on the given text. -/
def tagMatches (s : List Char) : List (List Char × List Char) :=
  tagMatchesF (s.length + 1) s

/-- Test for the numeric-coercion regex of xmlToObj (src/main.ts line
124): one or more digits optionally followed by a dot and one or more
digits, anchored on both sides. -/
def isNumeric (s : List Char) : Bool :=
  let ds := s.takeWhile Char.isDigit
  let rest := s.dropWhile Char.isDigit
  ds ≠ [] && (rest = [] || (match rest with
    | '.' :: fs => fs ≠ [] && fs.all Char.isDigit
    | _ => false))

/-- Primitive coercion of trimmed, markup-free tag content (src/main.ts
lines 121-128): exact "true"/"false" become booleans, numeric text becomes
a number, everything else stays a (trimmed) string. -/
def coerce (t : List Char) : JVal :=
  if t = "true".toList then .jbool true
  else if t = "false".toList then .jbool false
  else if isNumeric t then .num t
  else .str t

/-- JS object insertion result[tagName] = value: an existing key is
updated in place, a fresh key is appended at the end. -/
def fInsert : JFields → List Char → JVal → JFields
  | .nil, k, v => .cons k v .nil
  | .cons k' v' r, k, v => if k' = k then .cons k' v r else .cons k' v' (fInsert r k v)

/-- The while-exec loop body of parseElement: assign each match's parsed
value into the result object, recursing (through the supplied function)
when the trimmed content still holds markup. -/
def buildObjWith (parseSub : List Char → JVal) :
    List (List Char × List Char) → JFields → JFields
  | [], acc => acc
  | (n, c) :: rest, acc =>
      let value := if (trimC c).contains '<' then parseSub c else coerce (trimC c)
      buildObjWith parseSub rest (fInsert acc n value)

/-- Function parseElement of xmlToObj (src/main.ts lines 106-133), fueled:
the recursion on nested tag content is bounded by the content length, so
any fuel exceeding the input length is enough. -/
def parseElemF : Nat → List Char → JVal
  | 0, s => .str (trimC s)
  | f + 1, s =>
      let content := trimC s
      if ¬ content.contains '<' then .str content
      else
        let ms := tagMatches content
        if ms = [] then .str content
        else .obj (buildObjWith (parseElemF f) ms .nil)

/-- Function xmlToObj (src/main.ts lines 105-135). -/
def xmlToObj (s : List Char) : JVal := parseElemF (s.length + 1) s

/-- Keys permitted by the round-trip claim: characters from [A-Za-z0-9_]
starting with a letter. -/
def goodKey (k : List Char) : Bool :=
  match k with
  | [] => false
  | c :: _ => c.isAlpha && k.all tagChar

mutual
/-- All keys occurring strictly inside a value (the keys of its object
subtrees, at every depth). -/
def keysBelowV : JVal → List (List Char)
  | .obj fs => keysAllF fs
  | _ => []
/-- All keys of an entry list, at every depth. -/
def keysAllF : JFields → List (List Char)
  | .nil => []
  | .cons k v r => k :: (keysBelowV v ++ keysAllF r)
end

/-- The top-level keys of an entry list. -/
def topKeysF : JFields → List (List Char)
  | .nil => []
  | .cons k _ r => k :: topKeysF r

/-- Pairwise distinctness of a key list. -/
def nodupKeys : List (List Char) → Bool
  | [] => true
  | k :: ks => !ks.contains k && nodupKeys ks

mutual
/-- The trees quantified over by the round-trip claim, as stated: internal
nodes are plain (necessarily nonempty) objects, leaves are strings,
numbers or booleans, keys consist of [A-Za-z0-9_] characters starting
with a letter, and no two sibling sanitized names collide.  Numbers are
represented by their printed decimal numeral. -/
def claimGoodV : JVal → Bool
  | .str _ => true
  | .jbool _ => true
  | .num r => isNumeric r
  | .obj fs => fs ≠ .nil && nodupKeys ((topKeysF fs).map sanitizeTagName) && claimGoodF fs
/-- Entry-list part of the round-trip claim's tree conditions. -/
def claimGoodF : JFields → Bool
  | .nil => true
  | .cons k v r => goodKey k && claimGoodV v && claimGoodF r
end

/-- String leaves that survive the decoder unchanged: stable under
trimming, free of the opening angle bracket, distinct from the boolean
words and not matching the numeric-coercion pattern. -/
def goodStr (s : List Char) : Bool :=
  decide (trimC s = s) && !s.contains '<' &&
  decide (s ≠ "true".toList) && decide (s ≠ "false".toList) && !isNumeric s

mutual
/-- Trees for which the round trip does hold (the amended claim):
claim-good trees whose string leaves are decoder-stable and in which no
key is reused anywhere inside its own subtree. -/
def goodV : JVal → Bool
  | .str s => goodStr s
  | .jbool _ => true
  | .num r => isNumeric r
  | .obj fs => fs ≠ .nil && nodupKeys (topKeysF fs) && goodF fs
/-- Entry-list part of the amended tree conditions. -/
def goodF : JFields → Bool
  | .nil => true
  | .cons k v r => goodKey k && !(keysBelowV v).contains k && goodV v && goodF r
end


/-- JS truthiness of a decoded value: strings are truthy iff nonempty,
numbers iff nonzero (the decoder stores the numeral, which denotes zero
exactly when it has no digit 1-9), objects always. -/
def jsTruthy : JVal → Bool
  | .str s => !s.isEmpty
  | .jbool b => b
  | .num r => r.any (fun c => c.isDigit && c ≠ '0')
  | .obj _ => true

/-- Association lookup in a decoded object (JS property access). -/
def fLookup : JFields → List Char → Option JVal
  | .nil, _ => none
  | .cons k v r, key => if k = key then some v else fLookup r key

/-- JS property access on a decoded value: undefined (none) on
non-objects and on absent keys. -/
def jsGet : JVal → List Char → Option JVal
  | .obj fs, k => fLookup fs k
  | _, _ => none

/-- A declared capability server (interface MCPServer, src/main.ts lines
29-33). -/
structure MCPServer where
  name : List Char
  description : List Char
  url : List Char
deriving DecidableEq

/-- A discovered capability tool (interface MCPTool, src/main.ts lines
35-39); the opaque inputSchema plays no role in the selection logic
modelled here and is omitted. -/
structure MCPTool where
  name : List Char
  description : List Char
deriving DecidableEq

/-- Reply handling of selectRelevantServers (src/main.ts lines 774-814),
as a function of the declared servers and of the model reply text.  The
decode step xmlToObj is total, so the catch branch of the source never
fires; the JS expression parsed.relevant_servers?.server_names with the
or-empty-array fallback yields either a truthy decoded value (some) or
the empty array (none); the filter predicate asks isArray x, which is
false for every decoded value, and otherwise compares x to the server
name with strict equality, so only a string value equal to the name
selects a server, and the empty-array fallback selects none. -/
def selectRelevantServersCore (servers : List MCPServer) (response : List Char) :
    List MCPServer :=
  if servers = [] then []
  else if response = [] then servers
  else
    let parsed := xmlToObj response
    let serverNames : Option JVal :=
      match (jsGet parsed "relevant_servers".toList).bind
          (fun v => jsGet v "server_names".toList) with
      | some v => if jsTruthy v then some v else none
      | none => none
    servers.filter (fun srv =>
      match serverNames with
      | some v => v = JVal.str srv.name
      | none => false)

/-- Reply handling of selectRelevantTools (src/main.ts lines 817-858),
analogously to selectRelevantServersCore; an empty reply falls back to
the one-element slice of the discovered tools. -/
def selectRelevantToolsCore (tools : List MCPTool) (response : List Char) :
    List MCPTool :=
  if tools = [] then []
  else if response = [] then tools.take 1
  else
    let parsed := xmlToObj response
    let toolNames : Option JVal :=
      match (jsGet parsed "selected_tools".toList).bind
          (fun v => jsGet v "tool_names".toList) with
      | some v => if jsTruthy v then some v else none
      | none => none
    tools.filter (fun t =>
      match toolNames with
      | some v => v = JVal.str t.name
      | none => false)

/-- An HTTP response as observed by fetchWithPayment: its status code and
its body text (the 402 payment details are parsed from the body by
external I/O and do not influence the control flow modelled here). -/
structure HttpResp where
  status : Nat
  body : String
deriving DecidableEq

/-- Field res.ok of the fetch API: status in the 2xx range. -/
def respOk (r : HttpResp) : Bool := 200 ≤ r.status && r.status < 300

/-- Constant maxRetries of fetchWithPayment (src/main.ts line 260). -/
def maxPaymentRetries : Nat := 1

/-- Error text thrown on a non-retryable failure (src/main.ts line 274). -/
def requestFailedMsg (r : HttpResp) : String :=
  "Request failed: " ++ toString r.status ++ " - " ++ r.body

/-- A configured wallet credential (config solanaWallet). -/
structure SolanaWallet where
  privateKey : String
deriving DecidableEq

/-- The while-true loop of fetchWithPayment (src/main.ts lines 252-318).
The transport maps the index of each issued request to its response; the
result carries the outcome together with the number of requests issued.
On a 402 with retry budget left and a configured wallet, the on-chain
payment (body parse, transfer, confirmation) is performed by external
I/O and the loop re-issues the request with the retry counter bumped. -/
def fetchWithPaymentLoop (transport : Nat → HttpResp) (wallet : Option SolanaWallet)
    (retries calls : Nat) : Except String HttpResp × Nat :=
  let res := transport calls
  if respOk res then (.ok res, calls + 1)
  else if res.status ≠ 402 || maxPaymentRetries ≤ retries || wallet.isNone then
    (.error (requestFailedMsg res), calls + 1)
  else
    fetchWithPaymentLoop transport wallet (retries + 1) (calls + 1)
termination_by maxPaymentRetries + 1 - retries
decreasing_by
  simp_all [maxPaymentRetries]

/-- Function fetchWithPayment, entered with a zero retry counter. -/
def fetchWithPayment (transport : Nat → HttpResp) (wallet : Option SolanaWallet) :
    Except String HttpResp × Nat :=
  fetchWithPaymentLoop transport wallet 0 0

/-- State of the streaming tag demultiplexer (src/main.ts lines 463-467). -/
structure DemuxState where
  tagStack : List (List Char)
  currentTagName : List Char
  wordBuffer : List Char
  insideTag : Bool
deriving DecidableEq

/-- A streaming update: the underscore-joined field path and an
incremental text fragment. -/
structure StreamingUpd where
  field : List Char
  value : List Char
deriving DecidableEq

/-- Field identity of an update: the tag stack joined with underscores. -/
def fieldOfStack (ts : List (List Char)) : List Char := List.intercalate ['_'] ts

/-- One character step of processChunk (src/main.ts lines 485-520,
repeated verbatim at lines 615-650).  The step is total: a tag name
beginning with a slash pops via dropLast whatever the name, and popping
an empty stack leaves it empty. -/
def demuxStep (st : DemuxState) (c : Char) : DemuxState × List StreamingUpd :=
  if c = '<' then
    ({ st with wordBuffer := [], insideTag := true, currentTagName := [] },
     if st.wordBuffer ≠ [] && st.tagStack ≠ [] then
       [⟨fieldOfStack st.tagStack, st.wordBuffer⟩] else [])
  else if c = '>' && st.insideTag then
    let newStack :=
      if st.currentTagName.head? = some '/' then st.tagStack.dropLast
      else if trimC st.currentTagName ≠ [] then st.tagStack ++ [trimC st.currentTagName]
      else st.tagStack
    ({ st with tagStack := newStack, currentTagName := [], wordBuffer := [],
               insideTag := false }, [])
  else if st.insideTag then
    ({ st with currentTagName := st.currentTagName ++ [c] }, [])
  else if st.tagStack ≠ [] then
    if c = ' ' || c = '\n' then
      ({ st with wordBuffer := [] },
       (if st.wordBuffer ≠ [] then [⟨fieldOfStack st.tagStack, st.wordBuffer⟩] else [])
         ++ [⟨fieldOfStack st.tagStack, [c]⟩])
    else ({ st with wordBuffer := st.wordBuffer ++ [c] }, [])
  else (st, [])

/-- Iterated demultiplexer steps over a character sequence, accumulating
the emitted updates in order. -/
def demuxRun (st : DemuxState) : List Char → DemuxState × List StreamingUpd
  | [] => (st, [])
  | c :: cs =>
      let r1 := demuxStep st c
      let r2 := demuxRun r1.1 cs
      (r2.1, r1.2 ++ r2.2)

/-- Initial demultiplexer state (src/main.ts lines 464-467). -/
def demuxInit : DemuxState := ⟨[], [], [], false⟩

/-- Whole-stream processing: all updates emitted while consuming the
stream, followed by the end-of-stream flush of a pending word buffer
under an open tag (src/main.ts lines 547-551 and 659-662). -/
def processStream (s : List Char) : List StreamingUpd :=
  let r := demuxRun demuxInit s
  r.2 ++ (if r.1.wordBuffer ≠ [] && r.1.tagStack ≠ [] then
    [⟨fieldOfStack r.1.tagStack, r.1.wordBuffer⟩] else [])

/-- Concatenation, in emission order, of the values of all updates
attributed to the given field. -/
def updatesForField (f : List Char) (ups : List StreamingUpd) : List Char :=
  ((ups.filter (fun u => u.field = f)).map (fun u => u.value)).flatten

/-- Tag names for which the amended streaming-reconstruction statement is
made: nonempty, trim-stable, not a closing tag, and free of both angle
brackets (a bracket inside the name would end or restart the tag). -/
def goodStreamTagName (name : List Char) : Bool :=
  decide (name ≠ []) && decide (trimC name = name) &&
  decide (name.head? ≠ some '/') && !name.contains '<' && !name.contains '>'

mutual
/-- Output schemas as accepted by the Agent configuration: the zod kinds
that the source inspects through typeName dispatch. -/
inductive ZSchema where
  | zstring
  | zboolean
  | znumber
  | zenum (vals : List String)
  | zoptional (inner : ZSchema)
  | znullable (inner : ZSchema)
  | zarray (elem : ZSchema)
  | zobject (fields : ZFields)
/-- Entry list of an object schema. -/
inductive ZFields where
  | nil
  | cons (key : String) (schema : ZSchema) (rest : ZFields)
end

deriving instance DecidableEq for ZSchema, ZFields

/-- Path accumulation of validateNoArrays (src/main.ts line 982). -/
def dotJoin (path key : String) : String :=
  if path = "" then key else path ++ "." ++ key

/-- Error message thrown by validateNoArrays (src/main.ts line 991). -/
def arrayErrMsg (currentPath key : String) : String :=
  "Arrays are not supported in output schema. Found array at path: " ++ currentPath ++
  ". Use individual fields like " ++ key ++ "_1, " ++ key ++ "_2 instead."

mutual
/-- Per-field body of validateNoArrays: the optional/nullable unwrap loop
(src/main.ts lines 985-988) followed by the kind dispatch (lines
990-996). -/
def validateField : ZSchema → String → String → Except String Unit
  | .zoptional inner, currentPath, key => validateField inner currentPath key
  | .znullable inner, currentPath, key => validateField inner currentPath key
  | .zarray _, currentPath, key => .error (arrayErrMsg currentPath key)
  | .zobject fields, currentPath, _ => validateFields fields currentPath
  | _, _, _ => .ok ()
/-- Function validateNoArrays (src/main.ts lines 979-998). -/
def validateFields : ZFields → String → Except String Unit
  | .nil, _ => .ok ()
  | .cons k sc rest, path => do
      validateField sc (dotJoin path k) k
      validateFields rest path
end

/-- The eager construction-time check of the Agent constructor
(src/main.ts lines 141-144): construction succeeds exactly when the
output schema passes validateNoArrays.  The run pipeline modelled below
never invokes the check again. -/
def agentConstruct (outputFields : ZFields) : Except String ZFields :=
  (validateFields outputFields "").map (fun _ => outputFields)

mutual
/-- Independent structural predicate: the schema contains an array kind
at some nesting depth (after unwrapping optional/nullable wrappers). -/
def schemaHasArray : ZSchema → Bool
  | .zoptional inner => schemaHasArray inner
  | .znullable inner => schemaHasArray inner
  | .zarray _ => true
  | .zobject fields => fieldsHaveArray fields
  | _ => false
/-- Entry-list part of the array-containment predicate. -/
def fieldsHaveArray : ZFields → Bool
  | .nil => false
  | .cons _ sc rest => schemaHasArray sc || fieldsHaveArray rest
end

mutual
/-- The dotted path (as a key list) leads, after unwrapping wrappers at
every step, to an array kind. -/
def arrayAtPathS : ZSchema → List String → Bool
  | .zoptional inner, p => arrayAtPathS inner p
  | .znullable inner, p => arrayAtPathS inner p
  | .zarray _, p => decide (p = [])
  | .zobject fields, k :: p => arrayAtPathF fields k p
  | _, _ => false
/-- Entry-list part of the path predicate. -/
def arrayAtPathF : ZFields → String → List String → Bool
  | .nil, _, _ => false
  | .cons k' sc rest, k, p =>
      (decide (k' = k) && arrayAtPathS sc p) || arrayAtPathF rest k p
end

mutual
/-- All field keys of a schema, at every depth, are nonempty. -/
def schemaKeysNonempty : ZSchema → Bool
  | .zoptional inner => schemaKeysNonempty inner
  | .znullable inner => schemaKeysNonempty inner
  | .zarray elem => schemaKeysNonempty elem
  | .zobject fields => fieldsKeysNonempty fields
  | _ => true
/-- Entry-list part of the nonempty-key predicate. -/
def fieldsKeysNonempty : ZFields → Bool
  | .nil => true
  | .cons k sc rest =>
      decide (k ≠ "") && schemaKeysNonempty sc && fieldsKeysNonempty rest
end

/-- Dotted rendering of a path given as a key list. -/
def dottedPath : List String → String
  | [] => ""
  | [k] => k
  | k :: rest => k ++ "." ++ dottedPath rest

/-- Iterated dotJoin, the accumulated currentPath after descending along
the given keys. -/
def joinAll (path : String) (p : List String) : String := p.foldl dotJoin path

/-- Last component of a path, with a default for the empty path. -/
def lastD (p : List String) (d : String) : String :=
  (d :: p).getLast (List.cons_ne_nil d p)

/-- Discriminator for a successful Except result. -/
def exceptOk {α : Type} : Except String α → Bool
  | .ok _ => true
  | .error _ => false

/-- Demonstration output schema holding an array at the nested path a.b,
wrapped in an optional. -/
def zDemoFields : ZFields :=
  .cons "a" (.zobject (.cons "b" (.zoptional (.zarray .zstring)) .nil)) .nil

mutual
/-- A JSON value as produced by tool invocations (response.json()); a
mutual inductive keeps all recursions structural. -/
inductive ToolVal where
  | tnull
  | tstr (s : List Char)
  | tnum (rep : List Char)
  | tbool (b : Bool)
  | tarr (elems : ToolArr)
  | tobj (fields : ToolObj)
/-- Element list of a JSON array. -/
inductive ToolArr where
  | anil
  | acons (v : ToolVal) (rest : ToolArr)
/-- Entry list of a JSON object. -/
inductive ToolObj where
  | onil
  | ocons (key : List Char) (v : ToolVal) (rest : ToolObj)
end

deriving instance DecidableEq for ToolVal, ToolArr, ToolObj

/-- The per-result gate of generateResponse (src/main.ts lines 917-919):
a result counts unless it is null or undefined, the empty string, or a
value whose JSON serialization is the two-character empty-object text --
which, among JSON values, holds exactly of the empty object. -/
def jsNonTrivial : ToolVal → Bool
  | .tnull => false
  | .tstr s => !s.isEmpty
  | .tobj .onil => false
  | _ => true

/-- Condition hasToolResults of generateResponse (src/main.ts lines
917-919). -/
def hasToolResults (toolResults : List (List Char × ToolVal)) : Bool :=
  decide (toolResults ≠ []) && toolResults.any (fun p => jsNonTrivial p.2)

/-- The keys of the prompt object assembled by generateResponse
(src/main.ts lines 911-923): input, output format description and task
always; the context block of tool results exactly under hasToolResults. -/
def generationPromptKeys (toolResults : List (List Char × ToolVal)) : List (List Char) :=
  ["input".toList, "output_format".toList, "task".toList] ++
    (if hasToolResults toolResults then ["context".toList] else [])

/-- JS falsiness of a JSON value: null, false, zero and the empty string
are falsy (undefined cannot appear in a JSON result). -/
def jsFalsyTool : ToolVal → Bool
  | .tnull => true
  | .tbool b => !b
  | .tstr s => s.isEmpty
  | .tnum r => !r.any (fun c => c.isDigit && c ≠ '0')
  | _ => false

/-- Modelled from the spec: the error semantics of the measure() wrapper
from the external @ments/utils package, which is absent from src/.  Per
the spec, an error thrown inside a measured step (such as a zod parse
failure) surfaces as an undefined step result, while the caller-visible
run rejects with an error thrown by the pipeline body itself.  Under
that semantics, run (src/main.ts lines 147-250) reduces, in the respects
this claim concerns, to the following function of the input parse
result, the generated response, and the output-schema parse: a failed
input parse yields undefined, so run throws the explicit input-validation
error (lines 155-157); a failed output parse yields undefined, and run
returns the or-empty-object fallback (line 245). -/
def runAgentOutcome (inputParse : Option ToolObj) (genResponse : Option ToolObj)
    (outputParse : ToolObj → Option ToolObj) : Except String ToolObj :=
  match inputParse with
  | none => .error "Input validation failed. Please check the provided input against the agent's input format."
  | some _ =>
      let response := genResponse.getD .onil
      let validatedResponse := outputParse response
      .ok (validatedResponse.getD .onil)

/-- JS object field write obj[key] = value on a tool-result object. -/
def oInsert : ToolObj → List Char → ToolVal → ToolObj
  | .onil, k, v => .ocons k v .onil
  | .ocons k' v' r, k, v =>
      if k' = k then .ocons k' v r else .ocons k' v' (oInsert r k v)

/-- A heap of JS objects: the address of an object is its index. -/
abbrev Heap := List ToolObj

/-- Modelled from the spec (and the zod contract, zod being an external
collaborator): parsing an input object against the Input Schema returns a
fresh validated copy; the model allocates the copy at a fresh address. -/
def zodParseCopy (h : Heap) (addr : Nat) : Heap × Nat :=
  (h ++ [h.getD addr .onil], h.length)

/-- Heap-level model of resolveMCPInputFields (src/main.ts lines
672-771): for each top-level input field, the outcome of the
mcp-description check and of the discover/select/parameterize/invoke
pipeline is abstracted into an oracle entry; a some-result performs the
in-place field write input[key] = result (line 764) at the supplied
address, anything else leaves the field untouched (the continue
branches).  Writes only ever target the supplied address. -/
def resolveMCPInputFields : Heap → Nat → List (List Char × Option ToolVal) → Heap
  | h, _, [] => h
  | h, addr, (key, outcome) :: rest =>
      match outcome with
      | some r => resolveMCPInputFields (h.set addr (oInsert (h.getD addr .onil) key r))
          addr rest
      | none => resolveMCPInputFields h addr rest

/-- The input stages of run (src/main.ts lines 150-167): validate the
caller's object (producing the fresh validated copy), then resolve the
tool-backed fields in place on that copy; returns the final heap and the
address of the validated copy. -/
def runInputStages (h : Heap) (callerAddr : Nat)
    (resolutions : List (List Char × Option ToolVal)) : Heap × Nat :=
  let hv := zodParseCopy h callerAddr
  (resolveMCPInputFields hv.1 hv.2 resolutions, hv.2)


/-- Inner serialized content of a value: the leaf text, or the
concatenated serialized entries of an object. -/
def innerContent : JVal → List Char
  | .obj fs => entriesContent fs
  | v => leafStr v

/-- Expected scan result over a serialized entry list: one match per
entry, carrying the raw key and the entry's inner content. -/
def matchListF : JFields → List (List Char × List Char)
  | .nil => []
  | .cons k v r => (k, innerContent v) :: matchListF r

/-- Concatenation of entry lists. -/
def fAppend : JFields → JFields → JFields
  | .nil, b => b
  | .cons k v r, b => .cons k v (fAppend r b)

/-- Well-bracketed text over a key whitelist: every opening angle bracket
starts either an opening or a closing tag of a whitelisted well-formed
key.  The serialized form of a good tree satisfies this, and it is what
makes the lazy close-tag search of the scanner land exactly on the
intended serialized close tag. -/
inductive LtOk (K : List (List Char)) : List Char → Prop where
  | nil : LtOk K []
  | chr {c : Char} {s : List Char} : c ≠ '<' → LtOk K s → LtOk K (c :: s)
  | tagOpen {k s : List Char} : k ∈ K → goodKey k = true → LtOk K s →
      LtOk K ('<' :: k ++ '>' :: s)
  | tagClose {k s : List Char} : k ∈ K → goodKey k = true → LtOk K s →
      LtOk K ('<' :: '/' :: k ++ '>' :: s)

/-- C1, counterexample.  The single-field tree with string leaf "true"
satisfies every condition of the claim (plain-object internal node,
string leaf, well-formed non-colliding key), yet decoding its encoding
coerces the leaf to the boolean true, so the round trip does not
reproduce the original value. -/
theorem C1_counterexample :
    claimGoodV (.obj (.cons "a".toList (.str "true".toList) .nil)) = true ∧
    xmlToObj (objToXmlTop (.obj (.cons "a".toList (.str "true".toList) .nil)))
      ≠ .obj (.cons "a".toList (.str "true".toList) .nil) := by
  decide

/-- C2, counterexample.  With two declared servers and the malformed,
non-empty reply "Sorry, I cannot parse this request", server selection
returns the empty list, not the full declared list the claim requires:
the decoder is total (so the source's catch branch never fires), the
reply decodes to a bare string, no server name is extracted, and the
filter keeps nothing. -/
theorem C2_counterexample :
    selectRelevantServersCore
        [⟨"alpha".toList, "da".toList, "ua".toList⟩,
         ⟨"beta".toList, "db".toList, "ub".toList⟩]
        "Sorry, I cannot parse this request".toList = [] ∧
    ([] : List MCPServer) ≠
      [⟨"alpha".toList, "da".toList, "ua".toList⟩,
       ⟨"beta".toList, "db".toList, "ub".toList⟩] := by
  decide

/-- C2, amended: only an empty or missing model reply triggers the
fail-open fallback.  With at least one declared server (so in particular
in the claim's at-least-two setting) and an empty reply, server selection
returns the full declared list; a malformed but non-empty reply instead
yields only the servers the decoded reply literally names, which can be
none. -/
theorem C2_fail_open_on_empty_reply (servers : List MCPServer)
    (h : servers ≠ []) :
    selectRelevantServersCore servers [] = servers := by
  simp [selectRelevantServersCore, h]

/-- C2, witness for the amended theorem. -/
theorem C2_fail_open_on_empty_reply_witness :
    selectRelevantServersCore
        [⟨"alpha".toList, "da".toList, "ua".toList⟩,
         ⟨"beta".toList, "db".toList, "ub".toList⟩] [] =
      [⟨"alpha".toList, "da".toList, "ua".toList⟩,
       ⟨"beta".toList, "db".toList, "ub".toList⟩] :=
  C2_fail_open_on_empty_reply _ (by decide)

/-- C3, counterexample.  With two discovered tools and the malformed,
non-empty reply "Sorry, I cannot parse this request", tool selection
returns the empty list -- zero tools, not the first discovered tool the
claim requires: the decoder is total, no tool name is extracted from the
bare-string decode, and the filter keeps nothing. -/
theorem C3_counterexample :
    selectRelevantToolsCore
        [⟨"toolA".toList, "da".toList⟩, ⟨"toolB".toList, "db".toList⟩]
        "Sorry, I cannot parse this request".toList = [] ∧
    ([] : List MCPTool) ≠ [⟨"toolA".toList, "da".toList⟩] := by
  decide

/-- C3, amended: only an empty or missing model reply triggers the
fail-closed fallback -- on an empty reply tool selection returns exactly
the one-element slice of the discovered tools (the first tool when any
exist); a malformed but non-empty reply instead yields only the tools the
decoded reply literally names, which can be none. -/
theorem C3_fail_closed_on_empty_reply (tools : List MCPTool) :
    selectRelevantToolsCore tools [] = tools.take 1 := by
  cases tools with
  | nil => simp [selectRelevantToolsCore]
  | cons t ts => simp [selectRelevantToolsCore]

/-- Helper: once the retry counter has reached the budget, the payment
loop issues exactly one further request, whatever the transport answers. -/
theorem paymentLoop_budget_exhausted (t : Nat → HttpResp)
    (ww : Option SolanaWallet) (c : Nat) :
    (fetchWithPaymentLoop t ww 1 c).2 = c + 1 := by
  rw [fetchWithPaymentLoop]
  split
  · rfl
  · split
    · rfl
    · rename_i hcond
      exfalso
      simp [maxPaymentRetries] at hcond

/-- C4: with a configured wallet and an endpoint answering 402 to every
attempt, the payment wrapper issues exactly two requests (the original
and one retry) and terminates with the hard failure carrying the second
response's body text; with no wallet a 402 fails immediately after one
request; and for every transport and wallet the loop issues at most two
requests, so it never runs unboundedly. -/
theorem C4_payment_retry_budget (transport : Nat → HttpResp) (w : SolanaWallet)
    (h402 : ∀ n, (transport n).status = 402) :
    (fetchWithPayment transport (some w)
        = (.error (requestFailedMsg (transport 1)), 2)) ∧
    (fetchWithPayment transport none
        = (.error (requestFailedMsg (transport 0)), 1)) ∧
    (∀ (t : Nat → HttpResp) (ww : Option SolanaWallet),
        (fetchWithPayment t ww).2 ≤ 2) := by
  refine ⟨?_, ?_, ?_⟩
  · rw [fetchWithPayment, fetchWithPaymentLoop]
    rw [fetchWithPaymentLoop]
    simp [respOk, h402 0, h402 1, maxPaymentRetries]
  · rw [fetchWithPayment, fetchWithPaymentLoop]
    simp [respOk, h402 0, maxPaymentRetries]
  · intro t ww
    rw [fetchWithPayment, fetchWithPaymentLoop]
    split
    · exact by omega
    · split
      · exact by omega
      · have hx := paymentLoop_budget_exhausted t ww 1
        simp only [Nat.zero_add]
        omega

/-- C4, witness. -/
theorem C4_payment_retry_budget_witness :
    (fetchWithPayment (fun _ => ⟨402, "payment required"⟩) (some ⟨"key"⟩)
        = (.error (requestFailedMsg ⟨402, "payment required"⟩), 2)) ∧
    (fetchWithPayment (fun _ => ⟨402, "payment required"⟩) none
        = (.error (requestFailedMsg ⟨402, "payment required"⟩), 1)) ∧
    ((fetchWithPayment (fun _ => ⟨200, "fine"⟩) none).2 ≤ 2) := by
  have h := C4_payment_retry_budget (fun _ => ⟨402, "payment required"⟩) ⟨"key"⟩
    (fun _ => rfl)
  exact ⟨h.1, h.2.1, h.2.2 (fun _ => ⟨200, "fine"⟩) none⟩

/-- C10: the demultiplexer step is a total function by construction (no
error branch for any state and character); on the closing delimiter, a
pending tag name that begins with a slash pops the stack via dropLast --
with no condition relating the name to the most recently opened tag --
and popping an empty stack leaves it empty; no update is emitted by that
branch. -/
theorem C10_closing_tag_pops (st : DemuxState)
    (h1 : st.insideTag = true) (h2 : st.currentTagName.head? = some '/') :
    ((demuxStep st '>').1.tagStack = st.tagStack.dropLast) ∧
    (st.tagStack = [] → (demuxStep st '>').1.tagStack = []) ∧
    ((demuxStep st '>').2 = []) := by
  have hlt : ('>' = '<') = False := by simp
  have hstep : (demuxStep st '>').1.tagStack = st.tagStack.dropLast := by
    simp [demuxStep, h1, h2]
  refine ⟨hstep, ?_, ?_⟩
  · intro hnil
    rw [hstep, hnil]
    rfl
  · simp [demuxStep, h1, h2]

/-- C10, witness: a closing tag whose name matches nothing, arriving on
an empty stack. -/
theorem C10_closing_tag_pops_witness :
    ((demuxStep ⟨[], "/mismatch".toList, [], true⟩ '>').1.tagStack
        = ([] : List (List Char)).dropLast) ∧
    (([] : List (List Char)) = [] →
      (demuxStep ⟨[], "/mismatch".toList, [], true⟩ '>').1.tagStack = []) ∧
    ((demuxStep ⟨[], "/mismatch".toList, [], true⟩ '>').2 = []) :=
  C10_closing_tag_pops ⟨[], "/mismatch".toList, [], true⟩ rfl rfl

/-- C5, counterexample.  The stream with nested markup inside the outer
field's tag pair satisfies the claim's premise (it contains the tag pair
of field a), but the updates attributed to field a concatenate to "x",
not to the field's inner text, because the nested fragment is attributed
to the deeper path a_b. -/
theorem C5_counterexample :
    updatesForField "a".toList (processStream "<a>x<b>y</b></a>".toList)
        = "x".toList ∧
    updatesForField "a".toList (processStream "<a>x<b>y</b></a>".toList)
        ≠ "x<b>y</b>".toList := by
  decide

/-- C8, counterexample.  A run whose only tool result is the boolean
false has all tool results falsy, yet the prompt object does contain the
context block: the source's emptiness test only checks null, undefined,
the empty string and the empty-object serialization. -/
theorem C8_counterexample :
    (([("s.t".toList, ToolVal.tbool false)].all (fun p => jsFalsyTool p.2)) = true) ∧
    "context".toList ∈ generationPromptKeys [("s.t".toList, ToolVal.tbool false)] := by
  decide

/-- C8, amended: the final generation prompt contains the tool-results
context block if and only if at least one tool result is neither null nor
the empty string nor the empty object (so the block is absent exactly
when every result is one of those; other falsy results such as false or
zero do include the block). -/
theorem C8_context_block_gating (toolResults : List (List Char × ToolVal)) :
    "context".toList ∈ generationPromptKeys toolResults ↔
      ∃ p ∈ toolResults, jsNonTrivial p.2 = true := by
  have hb : "context".toList ∉
      ["input".toList, "output_format".toList, "task".toList] := by decide
  constructor
  · intro hmem
    rcases List.mem_append.mp hmem with hc | hc
    · exact absurd hc hb
    · by_cases h : hasToolResults toolResults = true
      · have h2 := h
        simp only [hasToolResults, Bool.and_eq_true, decide_eq_true_eq] at h2
        exact List.any_eq_true.mp h2.2
      · simp [h] at hc
  · rintro ⟨p, hp, hnt⟩
    have hne : toolResults ≠ [] := by rintro rfl; simp at hp
    have h : hasToolResults toolResults = true := by
      simp only [hasToolResults, Bool.and_eq_true, decide_eq_true_eq]
      exact ⟨hne, List.any_eq_true.mpr ⟨p, hp, hnt⟩⟩
    simp [generationPromptKeys, h]

/-- C7: under the spec-modelled measure semantics, a failed input parse
makes the run reject with the explicit input-validation error, while a
generated response failing the output-schema parse makes the run resolve
with the empty object rather than reject. -/
theorem C7_run_outcomes (genResponse : Option ToolObj)
    (outputParse : ToolObj → Option ToolObj) :
    (runAgentOutcome none genResponse outputParse =
      .error "Input validation failed. Please check the provided input against the agent's input format.") ∧
    (∀ v, outputParse (genResponse.getD .onil) = none →
      runAgentOutcome (some v) genResponse outputParse = .ok .onil) := by
  refine ⟨rfl, ?_⟩
  intro v h
  simp [runAgentOutcome, h]

/-- C7, witness. -/
theorem C7_run_outcomes_witness :
    (runAgentOutcome none none (fun _ => none) =
      .error "Input validation failed. Please check the provided input against the agent's input format.") ∧
    runAgentOutcome (some .onil) none (fun _ => none) = .ok .onil :=
  ⟨(C7_run_outcomes none (fun _ => none)).1,
   (C7_run_outcomes none (fun _ => none)).2 .onil rfl⟩

/-- Helper: field resolution never changes any heap address other than
the one it is given. -/
theorem resolveMCP_getElem_ne (res : List (List Char × Option ToolVal)) :
    ∀ (hp : Heap) (addr i : Nat), i ≠ addr →
      (resolveMCPInputFields hp addr res)[i]? = hp[i]? := by
  induction res with
  | nil => intro hp addr i _; rfl
  | cons e rest ih =>
      intro hp addr i hne
      rcases e with ⟨key, outcome⟩
      cases outcome with
      | none => simpa [resolveMCPInputFields] using ih hp addr i hne
      | some r =>
          simp only [resolveMCPInputFields]
          rw [ih _ addr i hne, List.getElem?_set_ne (Ne.symm hne)]

/-- C9: the caller's input object is never mutated by the input stages of
a run -- parsing allocates a fresh validated copy and field resolution
writes only to that copy, so the caller's address holds its original
object afterwards. -/
theorem C9_caller_input_not_mutated (h : Heap) (callerAddr : Nat)
    (resolutions : List (List Char × Option ToolVal))
    (hlt : callerAddr < h.length) :
    ((runInputStages h callerAddr resolutions).1)[callerAddr]? = h[callerAddr]? := by
  unfold runInputStages zodParseCopy
  rw [resolveMCP_getElem_ne _ _ _ _ (by omega)]
  rw [List.getElem?_append]
  simp [hlt]

/-- C9, witness. -/
theorem C9_caller_input_not_mutated_witness :
    ((runInputStages [ToolObj.ocons "q".toList ToolVal.tnull .onil] 0
        [("q".toList, some (ToolVal.tstr "r".toList))]).1)[0]? =
      ([ToolObj.ocons "q".toList ToolVal.tnull .onil] : Heap)[0]? :=
  C9_caller_input_not_mutated _ 0 _ (by decide)

/-- Helper: appending to a nonempty string yields a nonempty string. -/
theorem string_append_ne_empty (a b : String) (h : a ≠ "") : a ++ b ≠ "" := by
  intro hc
  apply h
  have h2 := String.ext_iff.mp hc
  rw [String.data_append] at h2
  rcases List.append_eq_nil.mp h2 with ⟨ha, _⟩
  exact String.ext ha

/-- Helper: the path-last accessor shifts over a cons. -/
theorem lastD_cons (k : String) (p : List String) (d : String) :
    lastD (k :: p) d = lastD p k := by
  unfold lastD
  exact List.getLast_cons (List.cons_ne_nil k p)

/-- Helper: iterated dotJoin from a nonempty accumulated path is the
accumulated path followed by the dotted rendering. -/
theorem joinAll_of_ne_empty : ∀ (p : List String) (cp : String), cp ≠ "" →
    joinAll cp p = if p = [] then cp else cp ++ "." ++ dottedPath p := by
  intro p
  induction p with
  | nil => intro cp _; rfl
  | cons x rest ih =>
      intro cp hcp
      have hstep : joinAll cp (x :: rest) = joinAll (cp ++ "." ++ x) rest := by
        simp [joinAll, dotJoin, hcp]
      rw [hstep, ih (cp ++ "." ++ x) (string_append_ne_empty _ _ (string_append_ne_empty _ _ hcp))]
      cases rest with
      | nil => simp [dottedPath]
      | cons y ys =>
          simp only [List.cons_ne_nil, if_neg, ite_false]
          show cp ++ "." ++ x ++ "." ++ dottedPath (y :: ys)
              = cp ++ "." ++ dottedPath (x :: y :: ys)
          have hd : dottedPath (x :: y :: ys) = x ++ "." ++ dottedPath (y :: ys) := rfl
          rw [hd]
          simp [String.append_assoc]

/-- Helper: iterated dotJoin from the empty path is the dotted rendering. -/
theorem joinAll_empty_eq_dotted (k : String) (p : List String) (hk : k ≠ "") :
    joinAll "" (k :: p) = dottedPath (k :: p) := by
  have h0 : joinAll "" (k :: p) = joinAll k p := by
    simp [joinAll, dotJoin]
  rw [h0, joinAll_of_ne_empty p k hk]
  cases p with
  | nil => rfl
  | cons y ys => simp [dottedPath]

mutual
/-- Helper: the per-field check succeeds exactly when the field schema
contains no array at any depth. -/
theorem validateField_isOk : ∀ (sc : ZSchema) (cp key : String),
    exceptOk (validateField sc cp key) = !schemaHasArray sc
  | .zoptional inner, cp, key => by
      simpa [validateField, schemaHasArray] using validateField_isOk inner cp key
  | .znullable inner, cp, key => by
      simpa [validateField, schemaHasArray] using validateField_isOk inner cp key
  | .zarray e, cp, key => by simp [validateField, schemaHasArray, exceptOk]
  | .zobject fields, cp, key => by
      simpa [validateField, schemaHasArray] using validateFields_isOk fields cp
  | .zstring, cp, key => by simp [validateField, schemaHasArray, exceptOk]
  | .zboolean, cp, key => by simp [validateField, schemaHasArray, exceptOk]
  | .znumber, cp, key => by simp [validateField, schemaHasArray, exceptOk]
  | .zenum vals, cp, key => by simp [validateField, schemaHasArray, exceptOk]
/-- Helper: validateNoArrays succeeds exactly when no field contains an
array at any depth. -/
theorem validateFields_isOk : ∀ (fields : ZFields) (path : String),
    exceptOk (validateFields fields path) = !fieldsHaveArray fields
  | .nil, path => by simp [validateFields, fieldsHaveArray, exceptOk]
  | .cons k sc rest, path => by
      have h1 := validateField_isOk sc (dotJoin path k) k
      have h2 := validateFields_isOk rest path
      match hv : validateField sc (dotJoin path k) k with
      | .ok u =>
          rw [hv] at h1
          simp only [exceptOk] at h1
          simp [validateFields, hv, fieldsHaveArray, ← h1, h2, Bind.bind, Except.bind]
      | .error m =>
          rw [hv] at h1
          simp only [exceptOk] at h1
          simp [validateFields, hv, fieldsHaveArray, ← h1, Bind.bind, Except.bind, exceptOk]
end

mutual
/-- Helper: an error raised inside a field names, through the accumulated
current path, the exact dotted path of an array occurrence, ending at the
offending field's key. -/
theorem validateField_error_path : ∀ (sc : ZSchema) (cp key m : String),
    schemaKeysNonempty sc = true →
    validateField sc cp key = .error m →
    ∃ p, arrayAtPathS sc p = true ∧ (∀ x ∈ p, x ≠ "") ∧
      m = arrayErrMsg (joinAll cp p) (lastD p key)
  | .zoptional inner, cp, key, m => fun hk hv => by
      rcases validateField_error_path inner cp key m
          (by simpa [schemaKeysNonempty] using hk)
          (by simpa [validateField] using hv) with ⟨p, h1, h2, h3⟩
      exact ⟨p, by simpa [arrayAtPathS] using h1, h2, h3⟩
  | .znullable inner, cp, key, m => fun hk hv => by
      rcases validateField_error_path inner cp key m
          (by simpa [schemaKeysNonempty] using hk)
          (by simpa [validateField] using hv) with ⟨p, h1, h2, h3⟩
      exact ⟨p, by simpa [arrayAtPathS] using h1, h2, h3⟩
  | .zarray e, cp, key, m => fun _ hv => by
      refine ⟨[], by simp [arrayAtPathS], by simp, ?_⟩
      simp only [validateField, Except.error.injEq] at hv
      simp [joinAll, lastD, ← hv, List.getLast]
  | .zobject fields, cp, key, m => fun hk hv => by
      rcases validateFields_error_path fields cp m
          (by simpa [schemaKeysNonempty] using hk)
          (by simpa [validateField] using hv) with ⟨k, p, h1, hk0, h2, h3⟩
      refine ⟨k :: p, by simpa [arrayAtPathS] using h1, ?_, ?_⟩
      · intro x hx
        rcases List.mem_cons.mp hx with rfl | hx
        · exact hk0
        · exact h2 x hx
      · rw [h3, lastD_cons]
  | .zstring, cp, key, m => fun _ hv => by simp [validateField] at hv
  | .zboolean, cp, key, m => fun _ hv => by simp [validateField] at hv
  | .znumber, cp, key, m => fun _ hv => by simp [validateField] at hv
  | .zenum vals, cp, key, m => fun _ hv => by simp [validateField] at hv
/-- Helper: an error raised by validateNoArrays names, through the
accumulated path, the exact dotted path of an array occurrence. -/
theorem validateFields_error_path : ∀ (fields : ZFields) (path m : String),
    fieldsKeysNonempty fields = true →
    validateFields fields path = .error m →
    ∃ k p, arrayAtPathF fields k p = true ∧ k ≠ "" ∧ (∀ x ∈ p, x ≠ "") ∧
      m = arrayErrMsg (joinAll path (k :: p)) (lastD p k)
  | .nil, path, m => fun _ hv => by simp [validateFields] at hv
  | .cons k sc rest, path, m => fun hk hv => by
      have hks : decide (k ≠ "") && schemaKeysNonempty sc && fieldsKeysNonempty rest
          = true := by simpa [fieldsKeysNonempty] using hk
      simp only [Bool.and_eq_true, decide_eq_true_eq] at hks
      match hfield : validateField sc (dotJoin path k) k with
      | .error m0 =>
          have hm : m = m0 := by
            simp [validateFields, hfield, Bind.bind, Except.bind] at hv
            exact hv.symm
          rcases validateField_error_path sc (dotJoin path k) k m0 hks.1.2 hfield with
            ⟨p, h1, h2, h3⟩
          refine ⟨k, p, ?_, hks.1.1, h2, ?_⟩
          · simp [arrayAtPathF, h1]
          · rw [hm, h3]
            rfl
      | .ok u =>
          have hrest : validateFields rest path = .error m := by
            simpa [validateFields, hfield, Bind.bind, Except.bind] using hv
          rcases validateFields_error_path rest path m hks.2 hrest with
            ⟨k2, p2, h1, hk2, h2, h3⟩
          exact ⟨k2, p2, by simp [arrayAtPathF, h1], hk2, h2, h3⟩
end

/-- C6: constructing an Agent succeeds exactly when the output schema
contains no array kind at any nesting depth (after recursively unwrapping
optional/nullable wrappers), the check being the eager constructor-time
validateNoArrays call -- the run pipeline modelled in this file never
invokes it; and any construction error message carries the exact dotted
path to the offending field, ending at that field's key. -/
theorem C6_array_rejection (fields : ZFields)
    (hkeys : fieldsKeysNonempty fields = true) :
    (exceptOk (agentConstruct fields) = !fieldsHaveArray fields) ∧
    (∀ m, agentConstruct fields = .error m →
      ∃ p, p ≠ [] ∧ arrayAtPathS (.zobject fields) p = true ∧
        m = arrayErrMsg (dottedPath p) (lastD p "")) := by
  constructor
  · have h := validateFields_isOk fields ""
    unfold agentConstruct
    match hv : validateFields fields "" with
    | .ok u => rw [hv] at h; simpa [Except.map, exceptOk] using h
    | .error m => rw [hv] at h; simpa [Except.map, exceptOk] using h
  · intro m hm
    have hv : validateFields fields "" = .error m := by
      unfold agentConstruct at hm
      match hv : validateFields fields "" with
      | .ok u => rw [hv] at hm; simp [Except.map] at hm
      | .error m0 =>
          rw [hv] at hm
          simp only [Except.map, Except.error.injEq] at hm
          rw [hm]
    rcases validateFields_error_path fields "" m hkeys hv with ⟨k, p, h1, hk0, h2, h3⟩
    refine ⟨k :: p, by simp, by simpa [arrayAtPathS] using h1, ?_⟩
    rw [h3, joinAll_empty_eq_dotted k p hk0, lastD_cons]

/-- C6, witness: the demonstration schema with an array at path a.b. -/
theorem C6_array_rejection_witness :
    (exceptOk (agentConstruct zDemoFields) = !fieldsHaveArray zDemoFields) ∧
    (∃ p, p ≠ [] ∧ arrayAtPathS (.zobject zDemoFields) p = true ∧
      arrayErrMsg "a.b" "b" = arrayErrMsg (dottedPath p) (lastD p "")) :=
  ⟨(C6_array_rejection zDemoFields (by decide)).1,
   (C6_array_rejection zDemoFields (by decide)).2 (arrayErrMsg "a.b" "b") (by rfl)⟩

/-- Helper: list containment in the Bool sense implies membership. -/
theorem contains_false_not_mem {α : Type} [BEq α] [LawfulBEq α] {l : List α}
    {a : α} (h : l.contains a = false) : a ∉ l := by
  intro hm
  have h2 : l.contains a = true := by
    simp only [List.contains, List.elem_eq_mem, decide_eq_true_eq]
    exact hm
  rw [h] at h2
  exact Bool.noConfusion h2

/-- Helper: running the demultiplexer over a concatenation splits into
two runs with the update lists concatenated. -/
theorem demuxRun_append (a b : List Char) : ∀ (st : DemuxState),
    demuxRun st (a ++ b) =
      ((demuxRun (demuxRun st a).1 b).1,
       (demuxRun st a).2 ++ (demuxRun (demuxRun st a).1 b).2) := by
  induction a with
  | nil => intro st; simp [demuxRun]
  | cons c cs ih =>
      intro st
      simp only [List.cons_append, demuxRun, List.append_eq]
      rw [ih]
      simp [List.append_assoc]

/-- Helper: bracket-free characters arriving while a tag is open only
accumulate into the pending tag name. -/
theorem demuxRun_tagName : ∀ (w : List Char), (∀ c ∈ w, c ≠ '<' ∧ c ≠ '>') →
    ∀ (ts : List (List Char)) (nm wb : List Char),
    demuxRun ⟨ts, nm, wb, true⟩ w = (⟨ts, nm ++ w, wb, true⟩, [])
  | [], _, ts, nm, wb => by simp [demuxRun]
  | c :: cs, hw, ts, nm, wb => by
      have hc := hw c (List.mem_cons_self c cs)
      have hcs : ∀ x ∈ cs, x ≠ '<' ∧ x ≠ '>' :=
        fun x hx => hw x (List.mem_cons_of_mem c hx)
      have hstep : demuxStep ⟨ts, nm, wb, true⟩ c
          = (⟨ts, nm ++ [c], wb, true⟩, ([] : List StreamingUpd)) := by
        simp [demuxStep, hc.1, hc.2]
      simp only [demuxRun, hstep]
      rw [demuxRun_tagName cs hcs ts (nm ++ [c]) wb]
      simp

/-- Helper: processing an opening tag with a well-formed name, from any
state, pushes the name onto the stack and clears the buffers. -/
theorem demuxRun_openTag (st : DemuxState) (name : List Char)
    (hn : goodStreamTagName name = true) :
    (demuxRun st ('<' :: name ++ ['>'])).1
      = ⟨st.tagStack ++ [name], [], [], false⟩ := by
  simp only [goodStreamTagName, Bool.and_eq_true, decide_eq_true_eq,
    Bool.not_eq_true'] at hn
  obtain ⟨⟨⟨⟨hne, htrim⟩, hhead⟩, hlt⟩, hgt⟩ := hn
  have hchars : ∀ x ∈ name, x ≠ '<' ∧ x ≠ '>' := fun x hx =>
    ⟨fun h => contains_false_not_mem hlt (h ▸ hx),
     fun h => contains_false_not_mem hgt (h ▸ hx)⟩
  have hstep : demuxStep st '<'
      = (⟨st.tagStack, [], [], true⟩,
         if st.wordBuffer ≠ [] && st.tagStack ≠ [] then
           [⟨fieldOfStack st.tagStack, st.wordBuffer⟩] else []) := by
    simp [demuxStep]
  have hclose : demuxStep ⟨st.tagStack, name, [], true⟩ '>'
      = (⟨st.tagStack ++ [name], [], [], false⟩, ([] : List StreamingUpd)) := by
    simp [demuxStep, hhead, htrim, hne]
  simp only [List.cons_append, demuxRun, hstep, List.append_eq]
  rw [demuxRun_append name ['>'] ⟨st.tagStack, [], [], true⟩]
  rw [demuxRun_tagName name hchars st.tagStack [] []]
  simp [demuxRun, hclose]

/-- Helper: bracket-free content arriving inside an open tag is emitted
for the stack's field; the emitted values followed by the final word
buffer concatenate, after the initial word buffer, to exactly the
processed text. -/
theorem demuxRun_content : ∀ (c : List Char), '<' ∉ c →
    ∀ (ts : List (List Char)) (nm wb : List Char), ts ≠ [] →
    ∃ wb2 ups, demuxRun ⟨ts, nm, wb, false⟩ c = (⟨ts, nm, wb2, false⟩, ups) ∧
      (∀ u ∈ ups, u.field = fieldOfStack ts) ∧
      (ups.map (fun u => u.value)).flatten ++ wb2 = wb ++ c
  | [], _, ts, nm, wb, _ => ⟨wb, [], by simp [demuxRun], by simp, by simp⟩
  | c0 :: cs, hc, ts, nm, wb, hts => by
      have hc0 : c0 ≠ '<' := fun h => hc (h ▸ List.mem_cons_self c0 cs)
      have hcs : '<' ∉ cs := fun h => hc (List.mem_cons_of_mem c0 h)
      by_cases hsep : c0 = ' ' ∨ c0 = '\n'
      · have hstep : demuxStep ⟨ts, nm, wb, false⟩ c0 =
            (⟨ts, nm, [], false⟩,
             (if wb ≠ [] then [⟨fieldOfStack ts, wb⟩] else [])
               ++ [⟨fieldOfStack ts, [c0]⟩]) := by
          rcases hsep with rfl | rfl <;> simp [demuxStep, hts]
        rcases demuxRun_content cs hcs ts nm [] hts with ⟨wb2, ups, h1, h2, h3⟩
        refine ⟨wb2,
          ((if wb ≠ [] then [⟨fieldOfStack ts, wb⟩] else [])
            ++ [⟨fieldOfStack ts, [c0]⟩]) ++ ups, ?_, ?_, ?_⟩
        · simp only [demuxRun, hstep, h1]
        · intro u hu
          rcases List.mem_append.mp hu with hu | hu
          · rcases List.mem_append.mp hu with hu | hu
            · by_cases hwb : wb = []
              · simp [hwb] at hu
              · simp [hwb] at hu
                rw [hu]
            · simp at hu
              rw [hu]
          · exact h2 u hu
        · simp only [List.map_append, List.flatten_append, List.append_assoc]
          rw [h3]
          by_cases hwb : wb = [] <;> simp [hwb]
      · push_neg at hsep
        have hstep : demuxStep ⟨ts, nm, wb, false⟩ c0 =
            (⟨ts, nm, wb ++ [c0], false⟩, ([] : List StreamingUpd)) := by
          simp [demuxStep, hts, hc0, hsep.1, hsep.2]
        rcases demuxRun_content cs hcs ts nm (wb ++ [c0]) hts with ⟨wb2, ups, h1, h2, h3⟩
        refine ⟨wb2, ups, ?_, h2, ?_⟩
        · simp only [demuxRun, hstep, h1]
          simp
        · rw [h3]
          simp

/-- C5, amended: for a well-formed tag name and inner text containing no
opening angle bracket, whatever the prior stream, every update emitted
while consuming the inner text followed by the closing tag's opening
bracket is attributed to the underscore-joined path ending in that tag,
and concatenating their values in emission order reproduces exactly the
inner text, whitespace included (separator updates and the flush at the
closing bracket account for every character). -/
theorem C5_streaming_reconstruction (st : DemuxState) (name c : List Char)
    (hn : goodStreamTagName name = true) (hc : '<' ∉ c) :
    (∀ u ∈ (demuxRun (demuxRun st ('<' :: name ++ ['>'])).1 (c ++ ['<'])).2,
        u.field = fieldOfStack (st.tagStack ++ [name])) ∧
    ((demuxRun (demuxRun st ('<' :: name ++ ['>'])).1 (c ++ ['<'])).2.map
        (fun u => u.value)).flatten = c := by
  rw [demuxRun_openTag st name hn]
  rcases demuxRun_content c hc (st.tagStack ++ [name]) [] [] (by simp) with
    ⟨wb2, ups, h1, h2, h3⟩
  have hflush : demuxRun ⟨st.tagStack ++ [name], [], wb2, false⟩ ['<'] =
      (⟨st.tagStack ++ [name], [], [], true⟩,
       if wb2 ≠ [] then [⟨fieldOfStack (st.tagStack ++ [name]), wb2⟩] else []) := by
    have hstep : demuxStep ⟨st.tagStack ++ [name], [], wb2, false⟩ '<' =
        (⟨st.tagStack ++ [name], [], [], true⟩,
         if wb2 ≠ [] then [⟨fieldOfStack (st.tagStack ++ [name]), wb2⟩] else []) := by
      by_cases hwb : wb2 = [] <;> simp [demuxStep, hwb]
    simp [demuxRun, hstep]
  rw [demuxRun_append c ['<'], h1, hflush]
  constructor
  · intro u hu
    rcases List.mem_append.mp hu with hu | hu
    · exact h2 u hu
    · by_cases hwb : wb2 = []
      · simp [hwb] at hu
      · simp [hwb] at hu
        rw [hu]
  · simp only [List.map_append, List.flatten_append]
    have : ((if wb2 ≠ [] then [(⟨fieldOfStack (st.tagStack ++ [name]), wb2⟩ : StreamingUpd)]
        else []).map (fun u => u.value)).flatten = wb2 := by
      by_cases hwb : wb2 = [] <;> simp [hwb]
    rw [this]
    simpa using h3

/-- C5, witness. -/
theorem C5_streaming_reconstruction_witness :
    (∀ u ∈ (demuxRun (demuxRun demuxInit ('<' :: "answer".toList ++ ['>'])).1
        ("Paris is great".toList ++ ['<'])).2,
        u.field = fieldOfStack (demuxInit.tagStack ++ ["answer".toList])) ∧
    ((demuxRun (demuxRun demuxInit ('<' :: "answer".toList ++ ['>'])).1
        ("Paris is great".toList ++ ['<'])).2.map (fun u => u.value)).flatten
      = "Paris is great".toList :=
  C5_streaming_reconstruction demuxInit "answer".toList "Paris is great".toList
    (by decide) (by decide)

/-- Helper: membership gives Bool containment. -/
theorem contains_of_mem {α : Type} [BEq α] [LawfulBEq α] {l : List α} {a : α}
    (h : a ∈ l) : l.contains a = true := by
  simp only [List.contains, List.elem_eq_mem, decide_eq_true_eq]
  exact h

/-- Helper: characters of the tag alphabet are not markup delimiters, not
whitespace, and are valid tag-name-group characters of the scanner. -/
theorem tagChar_facts {c : Char} (h : tagChar c = true) :
    c ≠ '<' ∧ c ≠ '>' ∧ c ≠ '/' ∧ jsWs c = false ∧ isNameChar c = true := by
  have hws : jsWs c = false := by
    cases hw : jsWs c
    · rfl
    · exfalso
      simp only [jsWs, Bool.or_eq_true, decide_eq_true_eq] at hw
      rcases hw with ((((hw | hw) | hw) | hw) | hw) | hw <;> subst hw <;>
        exact absurd h (by decide)
  have h1 : c ≠ '<' := by rintro rfl; exact absurd h (by decide)
  have h2 : c ≠ '>' := by rintro rfl; exact absurd h (by decide)
  have h3 : c ≠ '/' := by rintro rfl; exact absurd h (by decide)
  refine ⟨h1, h2, h3, hws, ?_⟩
  simp [isNameChar, h2, h3, hws]

/-- Helper: a good key is nonempty with all characters in the tag
alphabet. -/
theorem goodKey_facts {k : List Char} (h : goodKey k = true) :
    k ≠ [] ∧ (∀ c ∈ k, tagChar c = true) := by
  match k, h with
  | c :: cs, h =>
      simp only [goodKey, Bool.and_eq_true] at h
      exact ⟨List.cons_ne_nil c cs, fun x hx => (List.all_eq_true.mp h.2) x hx⟩

/-- Helper: a good key starts with a letter. -/
theorem goodKey_head {k : List Char} (h : goodKey k = true) :
    ∃ c cs, k = c :: cs ∧ c.isAlpha = true := by
  match k, h with
  | c :: cs, h =>
      simp only [goodKey, Bool.and_eq_true] at h
      exact ⟨c, cs, rfl, h.1⟩

/-- Helper: mapping the sanitizing replacement over tag-alphabet
characters is the identity. -/
theorem map_tagChar_id : ∀ (l : List Char), (∀ c ∈ l, tagChar c = true) →
    l.map (fun x => if tagChar x then x else '_') = l
  | [], _ => rfl
  | c :: cs, h => by
      rw [List.map_cons, if_pos (h c (List.mem_cons_self c cs)),
        map_tagChar_id cs (fun x hx => h x (List.mem_cons_of_mem c hx))]

/-- Helper: sanitization is the identity on good keys. -/
theorem sanitizeTagName_good {k : List Char} (h : goodKey k = true) :
    sanitizeTagName k = k := by
  obtain ⟨hne, hall⟩ := goodKey_facts h
  obtain ⟨c, cs, rfl, halpha⟩ := goodKey_head h
  unfold sanitizeTagName
  rw [map_tagChar_id _ hall]
  simp [halpha]

/-- Helper: serialized form of a leading entry under a good key. -/
theorem entriesContent_cons {k : List Char} (v : JVal) (r : JFields)
    (hk : goodKey k = true) :
    entriesContent (.cons k v r)
      = '<' :: k ++ '>' :: (innerContent v ++ closeTagOf k ++ entriesContent r) := by
  cases v with
  | obj fs =>
      show objToXml (.obj fs) (some k) ++ entriesContent r = _
      by_cases hfs : fs = JFields.nil
      · subst hfs
        simp [objToXml, wrapTag, sanitizeTagName_good hk, innerContent, entriesContent,
          closeTagOf, List.append_assoc]
      · simp [objToXml, hfs, wrapTag, sanitizeTagName_good hk, innerContent, closeTagOf,
          List.append_assoc]
  | str str_s => simp [entriesContent, innerContent, leafStr, closeTagOf, List.append_assoc]
  | jbool b => simp [entriesContent, innerContent, leafStr, closeTagOf, List.append_assoc]
  | num rep => simp [entriesContent, innerContent, leafStr, closeTagOf, List.append_assoc]

/-- Helper: digits and the dot are neither the opening bracket nor
whitespace. -/
theorem numeral_char_facts {c : Char} (h : c.isDigit = true ∨ c = '.') :
    c ≠ '<' ∧ jsWs c = false := by
  rcases h with h | rfl
  · refine ⟨?_, ?_⟩
    · rintro rfl; exact absurd h (by decide)
    · cases hw : jsWs c
      · rfl
      · exfalso
        simp only [jsWs, Bool.or_eq_true, decide_eq_true_eq] at hw
        rcases hw with ((((hw | hw) | hw) | hw) | hw) | hw <;> subst hw <;>
          exact absurd h (by decide)
  · exact ⟨by decide, by decide⟩

/-- Helper: a numeral starts with a digit and consists of digits and at
most one dot. -/
theorem isNumeric_facts {s : List Char} (h : isNumeric s = true) :
    (∃ c cs, s = c :: cs ∧ c.isDigit = true) ∧
    (∀ c ∈ s, c.isDigit = true ∨ c = '.') := by
  have hsplit := List.takeWhile_append_dropWhile (p := Char.isDigit) (l := s)
  simp only [isNumeric, Bool.and_eq_true, Bool.or_eq_true, decide_eq_true_eq] at h
  obtain ⟨hds, hrest⟩ := h
  constructor
  · match hd : s.takeWhile Char.isDigit, hds with
    | d :: ds, _ =>
        have hdig : d.isDigit = true :=
          List.mem_takeWhile_imp (hd ▸ List.mem_cons_self d ds)
        refine ⟨d, ds ++ s.dropWhile Char.isDigit, ?_, hdig⟩
        conv_lhs => rw [← hsplit]
        rw [hd]
        simp
  · intro c hc
    rw [← hsplit] at hc
    rcases List.mem_append.mp hc with hc | hc
    · exact Or.inl (List.mem_takeWhile_imp hc)
    · rcases hrest with hrest | hrest
      · rw [hrest] at hc; simp at hc
      · split at hrest
        · rename_i fs heq
          rw [heq] at hc
          rcases List.mem_cons.mp hc with rfl | hc2
          · exact Or.inr rfl
          · simp only [Bool.and_eq_true] at hrest
            exact Or.inl (List.all_eq_true.mp hrest.2 c hc2)
        · exact absurd hrest (by simp)

/-- Helper: a list whose ends are not whitespace is trim-stable. -/
theorem trimC_eq_self {l : List Char}
    (h1 : ∀ c, l.head? = some c → jsWs c = false)
    (h2 : ∀ c, l.getLast? = some c → jsWs c = false) : trimC l = l := by
  cases l with
  | nil => rfl
  | cons c cs =>
      have hc : jsWs c = false := h1 c rfl
      unfold trimC
      rw [List.dropWhile_cons, hc]
      simp only [Bool.false_eq_true, if_false]
      match hr : (c :: cs).reverse with
      | [] => exact absurd (congrArg List.length hr) (by simp)
      | d :: ds =>
          have hd : (c :: cs).getLast? = some d := by
            rw [← List.head?_reverse, hr]; rfl
          have hdw : jsWs d = false := h2 d hd
          rw [List.dropWhile_cons, hdw]
          simp only [Bool.false_eq_true, if_false]
          rw [← hr, List.reverse_reverse]

/-- Helper: coercion leaves a decoder-stable string alone. -/
theorem coerce_goodStr {s : List Char} (h : goodStr s = true) : coerce s = .str s := by
  simp only [goodStr, Bool.and_eq_true, decide_eq_true_eq, Bool.not_eq_true'] at h
  obtain ⟨⟨⟨⟨htrim, hlt⟩, htrue⟩, hfalse⟩, hnum⟩ := h
  have htrue2 : s ≠ ['t', 'r', 'u', 'e'] := htrue
  have hfalse2 : s ≠ ['f', 'a', 'l', 's', 'e'] := hfalse
  simp [coerce, htrue2, hfalse2, hnum]

/-- Helper: coercion turns a numeral into the number carrying it. -/
theorem coerce_numeral {r : List Char} (h : isNumeric r = true) : coerce r = .num r := by
  have htrue : r ≠ ['t', 'r', 'u', 'e'] := by rintro rfl; exact absurd h (by decide)
  have hfalse : r ≠ ['f', 'a', 'l', 's', 'e'] := by rintro rfl; exact absurd h (by decide)
  simp [coerce, htrue, hfalse, h]

/-- Helper: bundled character consequences for good keys. -/
theorem goodKey_chars {k : List Char} (h : goodKey k = true) :
    ('<' ∉ k) ∧ ('>' ∉ k) ∧ ('/' ∉ k) ∧ (∀ c ∈ k, isNameChar c = true) := by
  obtain ⟨-, hall⟩ := goodKey_facts h
  refine ⟨fun hm => ?_, fun hm => ?_, fun hm => ?_, fun c hc => ?_⟩
  · exact (tagChar_facts (hall _ hm)).1 rfl
  · exact (tagChar_facts (hall _ hm)).2.1 rfl
  · exact (tagChar_facts (hall _ hm)).2.2.1 rfl
  · exact (tagChar_facts (hall _ hc)).2.2.2.2

/-- Helper: well-bracketed texts concatenate. -/
theorem LtOk.append {K : List (List Char)} {a b : List Char}
    (ha : LtOk K a) (hb : LtOk K b) : LtOk K (a ++ b) := by
  induction ha with
  | nil => simpa using hb
  | @chr c ss hc hpr ih => exact .chr hc ih
  | @tagOpen k ss hk hg hpr ih =>
      have he : ('<' :: k ++ '>' :: ss) ++ b = '<' :: k ++ '>' :: (ss ++ b) := by simp
      rw [he]
      exact .tagOpen hk hg ih
  | @tagClose k ss hk hg hpr ih =>
      have he : ('<' :: '/' :: k ++ '>' :: ss) ++ b
          = '<' :: '/' :: k ++ '>' :: (ss ++ b) := by simp
      rw [he]
      exact .tagClose hk hg ih

/-- Helper: well-bracketedness is monotone in the whitelist. -/
theorem LtOk.mono {K K2 : List (List Char)} (hsub : ∀ x ∈ K, x ∈ K2)
    {s : List Char} (h : LtOk K s) : LtOk K2 s := by
  induction h with
  | nil => exact .nil
  | chr hc hpr ih => exact .chr hc ih
  | tagOpen hk hg hpr ih => exact .tagOpen (hsub _ hk) hg ih
  | tagClose hk hg hpr ih => exact .tagClose (hsub _ hk) hg ih

/-- Helper: bracket-free text is well-bracketed over any whitelist. -/
theorem LtOk.of_no_lt {K : List (List Char)} : ∀ {s : List Char},
    '<' ∉ s → LtOk K s
  | [], _ => .nil
  | c :: cs, h =>
      .chr (fun hc => h (hc ▸ List.mem_cons_self c cs))
        (LtOk.of_no_lt (fun hm => h (List.mem_cons_of_mem c hm)))

/-- Helper: a list is a Boolean prefix of itself extended. -/
theorem isPrefixOf_self_append : ∀ (l t : List Char), l.isPrefixOf (l ++ t) = true
  | [], _ => by simp [List.isPrefixOf]
  | c :: cs, t => by
      simp only [List.cons_append, List.isPrefixOf, beq_self_eq_true, Bool.true_and,
        List.append_eq]
      exact isPrefixOf_self_append cs t

/-- Helper: the pattern is found immediately where it starts. -/
theorem splitAtFirst_self (p : Char) (ps r : List Char) :
    splitAtFirst (p :: ps) ((p :: ps) ++ r) = some ([], r) := by
  show splitAtFirst (p :: ps) (p :: (ps ++ r)) = some ([], r)
  have hpre : (p :: ps).isPrefixOf (p :: (ps ++ r)) = true :=
    isPrefixOf_self_append (p :: ps) r
  have hd : List.drop (p :: ps).length (p :: (ps ++ r)) = r := List.drop_left (p :: ps) r
  simp only [splitAtFirst]
  rw [if_pos hpre, hd]

/-- Helper: the scan for a pattern starting with the opening bracket
passes over bracket-free text. -/
theorem splitAtFirst_not_lt (p : List Char) : ∀ (w z : List Char), '<' ∉ w →
    splitAtFirst ('<' :: p) (w ++ z)
      = (splitAtFirst ('<' :: p) z).map (fun q => (w ++ q.1, q.2))
  | [], z, _ => by
      simp only [List.nil_append]
      cases hsp : splitAtFirst ('<' :: p) z <;> simp [hsp]
  | c :: w2, z, h => by
      have hc : c ≠ '<' := fun hh => h (hh ▸ List.mem_cons_self c w2)
      have hw2 : '<' ∉ w2 := fun hm => h (List.mem_cons_of_mem c hm)
      have hbeq : ('<' == c) = false := beq_eq_false_iff_ne.mpr (Ne.symm hc)
      show splitAtFirst ('<' :: p) (c :: (w2 ++ z)) = _
      simp only [splitAtFirst, List.isPrefixOf, hbeq, Bool.false_and, Bool.false_eq_true,
        if_false]
      rw [splitAtFirst_not_lt p w2 z hw2]
      cases splitAtFirst ('<' :: p) z <;> simp

/-- Helper: a failed match attempt advances the scan by one character. -/
theorem splitAtFirst_cons_step {pat : List Char} {c : Char} {z : List Char}
    (h : pat.isPrefixOf (c :: z) = false) :
    splitAtFirst pat (c :: z) = (splitAtFirst pat z).map (fun q => (c :: q.1, q.2)) := by
  simp only [splitAtFirst, h, Bool.false_eq_true, if_false]

/-- Helper: the closing-bracket scan passes over bracket-free text and
lands on the first closing bracket. -/
theorem splitAtFirst_gt : ∀ (w z : List Char), '>' ∉ w →
    splitAtFirst ['>'] (w ++ '>' :: z) = some (w, z)
  | [], z, _ => by
      show splitAtFirst ['>'] ('>' :: z) = some ([], z)
      simp [splitAtFirst, List.isPrefixOf]
  | c :: w2, z, h => by
      have hc : c ≠ '>' := fun hh => h (hh ▸ List.mem_cons_self c w2)
      have hw2 : '>' ∉ w2 := fun hm => h (List.mem_cons_of_mem c hm)
      have hbeq : ('>' == c) = false := beq_eq_false_iff_ne.mpr (Ne.symm hc)
      show splitAtFirst ['>'] (c :: (w2 ++ '>' :: z)) = some (c :: w2, z)
      simp only [splitAtFirst, List.isPrefixOf, hbeq, Bool.false_and, Bool.false_eq_true,
        if_false]
      rw [splitAtFirst_gt w2 z hw2]
      rfl

/-- Helper: two closing-bracket-terminated words over a bracket-free
alphabet can only be prefix-compatible when equal. -/
theorem gtfree_eq_of_isPrefixOf : ∀ (a b x : List Char), '>' ∉ a → '>' ∉ b →
    (a ++ ['>']).isPrefixOf (b ++ '>' :: x) = true → a = b
  | [], [], _, _, _, _ => rfl
  | [], c :: b2, x, _, hb, hp => by
      exfalso
      have hc : c ≠ '>' := fun hh => hb (hh ▸ List.mem_cons_self c b2)
      have hbeq : ('>' == c) = false := beq_eq_false_iff_ne.mpr (Ne.symm hc)
      simp only [List.nil_append, List.cons_append, List.isPrefixOf, hbeq,
        Bool.false_and] at hp
      exact Bool.noConfusion hp
  | c :: a2, [], x, ha, _, hp => by
      exfalso
      have hc : c ≠ '>' := fun hh => ha (hh ▸ List.mem_cons_self c a2)
      have hbeq : (c == '>') = false := beq_eq_false_iff_ne.mpr hc
      simp only [List.nil_append, List.cons_append, List.isPrefixOf, hbeq,
        Bool.false_and] at hp
      exact Bool.noConfusion hp
  | c :: a2, d :: b2, x, ha, hb, hp => by
      have ha2 : '>' ∉ a2 := fun hm => ha (List.mem_cons_of_mem c hm)
      have hb2 : '>' ∉ b2 := fun hm => hb (List.mem_cons_of_mem d hm)
      simp only [List.cons_append, List.isPrefixOf, Bool.and_eq_true, beq_iff_eq] at hp
      rw [hp.1, gtfree_eq_of_isPrefixOf a2 b2 x ha2 hb2 hp.2]

/-- Helper: over well-bracketed text avoiding a key, the lazy scan for
that key's close tag lands exactly on an appended occurrence. -/
theorem splitAtFirst_closeTag {k2 : List Char} {K : List (List Char)}
    (hk2 : goodKey k2 = true) (hnot : k2 ∉ K) :
    ∀ {S : List Char}, LtOk K S → ∀ (r : List Char),
    splitAtFirst (closeTagOf k2) (S ++ closeTagOf k2 ++ r) = some (S, r) := by
  intro S h
  induction h with
  | nil =>
      intro r
      show splitAtFirst (closeTagOf k2) ([] ++ closeTagOf k2 ++ r) = some ([], r)
      rw [List.nil_append]
      exact splitAtFirst_self '<' ('/' :: k2 ++ ['>']) r
  | @chr c ss hc hpr ih =>
      intro r
      have hbeq : ('<' == c) = false := beq_eq_false_iff_ne.mpr (Ne.symm hc)
      have hpre : (closeTagOf k2).isPrefixOf (c :: (ss ++ closeTagOf k2 ++ r))
          = false := by
        show ('<' :: ('/' :: k2 ++ ['>'])).isPrefixOf (c :: (ss ++ closeTagOf k2 ++ r))
            = false
        simp [List.isPrefixOf, hbeq]
      show splitAtFirst (closeTagOf k2) (c :: (ss ++ closeTagOf k2 ++ r))
          = some (c :: ss, r)
      rw [splitAtFirst_cons_step hpre, ih r]
      rfl
  | @tagOpen k ss hk hg hpr ih =>
      intro r
      have hklt := (goodKey_chars hg).1
      obtain ⟨c, cs, hkeq, halpha⟩ := goodKey_head hg
      have hcslash : ('/' == c) = false := by
        have hcne : c ≠ '/' := fun hh => by subst hh; exact absurd halpha (by decide)
        exact beq_eq_false_iff_ne.mpr (Ne.symm hcne)
      have hshape : ('<' :: k ++ '>' :: ss) ++ closeTagOf k2 ++ r
          = '<' :: ((k ++ ['>']) ++ (ss ++ closeTagOf k2 ++ r)) := by simp
      have hpre : (closeTagOf k2).isPrefixOf
          ('<' :: ((k ++ ['>']) ++ (ss ++ closeTagOf k2 ++ r))) = false := by
        show ('<' :: ('/' :: k2 ++ ['>'])).isPrefixOf
            ('<' :: ((k ++ ['>']) ++ (ss ++ closeTagOf k2 ++ r))) = false
        subst hkeq
        simp [List.isPrefixOf, hcslash]
      have hwfree : '<' ∉ k ++ ['>'] := by
        intro hm
        rcases List.mem_append.mp hm with hm | hm
        · exact hklt hm
        · simp at hm
      rw [hshape, splitAtFirst_cons_step hpre]
      show (splitAtFirst ('<' :: ('/' :: k2 ++ ['>']))
          ((k ++ ['>']) ++ (ss ++ closeTagOf k2 ++ r))).map
          (fun q => ('<' :: q.1, q.2)) = some ('<' :: k ++ '>' :: ss, r)
      rw [splitAtFirst_not_lt ('/' :: k2 ++ ['>']) (k ++ ['>'])
        (ss ++ closeTagOf k2 ++ r) hwfree]
      have ih2 : splitAtFirst ('<' :: ('/' :: k2 ++ ['>'])) (ss ++ closeTagOf k2 ++ r)
          = some (ss, r) := ih r
      rw [ih2]
      show some ('<' :: ((k ++ ['>']) ++ ss), r) = some ('<' :: k ++ '>' :: ss, r)
      simp
  | @tagClose k ss hk hg hpr ih =>
      intro r
      have hk2gt := (goodKey_chars hk2).2.1
      have hkgt := (goodKey_chars hg).2.1
      have hklt := (goodKey_chars hg).1
      have hne : k2 ≠ k := fun hh => hnot (hh ▸ hk)
      have hshape : ('<' :: '/' :: k ++ '>' :: ss) ++ closeTagOf k2 ++ r
          = '<' :: (('/' :: k ++ ['>']) ++ (ss ++ closeTagOf k2 ++ r)) := by simp
      have hpre : (closeTagOf k2).isPrefixOf
          ('<' :: (('/' :: k ++ ['>']) ++ (ss ++ closeTagOf k2 ++ r))) = false := by
        cases hp : (closeTagOf k2).isPrefixOf
            ('<' :: (('/' :: k ++ ['>']) ++ (ss ++ closeTagOf k2 ++ r)))
        · rfl
        · exfalso
          have heq : ('/' :: k ++ ['>']) ++ (ss ++ closeTagOf k2 ++ r)
              = '/' :: (k ++ '>' :: (ss ++ closeTagOf k2 ++ r)) := by simp
          rw [heq] at hp
          have hp2 : ('<' :: ('/' :: (k2 ++ ['>']))).isPrefixOf
              ('<' :: ('/' :: (k ++ '>' :: (ss ++ closeTagOf k2 ++ r)))) = true := hp
          simp only [List.isPrefixOf, beq_self_eq_true, Bool.true_and] at hp2
          exact hne (gtfree_eq_of_isPrefixOf k2 k _ hk2gt hkgt hp2)
      have hwfree : '<' ∉ '/' :: k ++ ['>'] := by
        intro hm
        rcases List.mem_cons.mp hm with hm | hm
        · exact absurd hm.symm (by decide)
        · rcases List.mem_append.mp hm with hm | hm
          · exact hklt hm
          · simp at hm
      rw [hshape, splitAtFirst_cons_step hpre]
      show (splitAtFirst ('<' :: ('/' :: k2 ++ ['>']))
          (('/' :: k ++ ['>']) ++ (ss ++ closeTagOf k2 ++ r))).map
          (fun q => ('<' :: q.1, q.2)) = some ('<' :: '/' :: k ++ '>' :: ss, r)
      rw [splitAtFirst_not_lt ('/' :: k2 ++ ['>']) ('/' :: k ++ ['>'])
        (ss ++ closeTagOf k2 ++ r) hwfree]
      have ih2 : splitAtFirst ('<' :: ('/' :: k2 ++ ['>'])) (ss ++ closeTagOf k2 ++ r)
          = some (ss, r) := ih r
      rw [ih2]
      show some ('<' :: (('/' :: k ++ ['>']) ++ ss), r)
          = some ('<' :: '/' :: k ++ '>' :: ss, r)
      simp


/-- Helper: unpacked conjuncts of the entry-list goodness. -/
theorem goodF_cons {k : List Char} {v : JVal} {r : JFields}
    (h : goodF (.cons k v r) = true) :
    goodKey k = true ∧ (keysBelowV v).contains k = false ∧ goodV v = true ∧
      goodF r = true := by
  simp only [goodF, Bool.and_eq_true, Bool.not_eq_true'] at h
  exact ⟨h.1.1.1, h.1.1.2, h.1.2, h.2⟩

/-- Helper: unpacked conjuncts of object goodness. -/
theorem goodV_obj {fs : JFields} (h : goodV (.obj fs) = true) :
    fs ≠ .nil ∧ nodupKeys (topKeysF fs) = true ∧ goodF fs = true := by
  simp only [goodV, Bool.and_eq_true, decide_eq_true_eq] at h
  exact ⟨h.1.1, h.1.2, h.2⟩

mutual
/-- Helper: the serialized content of a good value is well-bracketed over
the keys of its own subtree. -/
theorem ltOk_innerContent : ∀ (v : JVal), goodV v = true →
    LtOk (keysBelowV v) (innerContent v)
  | .str s, h => by
      refine LtOk.of_no_lt ?_
      simp only [goodV, goodStr, Bool.and_eq_true, Bool.not_eq_true',
        decide_eq_true_eq] at h
      exact contains_false_not_mem h.1.1.1.2
  | .jbool true, _ => LtOk.of_no_lt (by decide)
  | .jbool false, _ => LtOk.of_no_lt (by decide)
  | .num r, h => by
      refine LtOk.of_no_lt ?_
      intro hm
      have hfacts := (isNumeric_facts (by simpa [goodV] using h)).2
      exact (numeral_char_facts (hfacts _ hm)).1 rfl
  | .obj fs, h => by
      show LtOk (keysAllF fs) (entriesContent fs)
      exact ltOk_entriesContent fs (goodV_obj h).2.2
/-- Helper: the serialized content of a good entry list is well-bracketed
over all its keys. -/
theorem ltOk_entriesContent : ∀ (fs : JFields), goodF fs = true →
    LtOk (keysAllF fs) (entriesContent fs)
  | .nil, _ => by
      show LtOk (keysAllF .nil) ([] : List Char)
      exact .nil
  | .cons k v r, h => by
      obtain ⟨hk, hnotin, hv, hr⟩ := goodF_cons h
      rw [entriesContent_cons v r hk]
      have hmem : k ∈ keysAllF (.cons k v r) := by
        show k ∈ k :: (keysBelowV v ++ keysAllF r)
        exact List.mem_cons_self _ _
      refine LtOk.tagOpen hmem hk ?_
      refine LtOk.append (LtOk.append ?_ ?_) ?_
      · exact (ltOk_innerContent v hv).mono (fun x hx => by
          show x ∈ k :: (keysBelowV v ++ keysAllF r)
          exact List.mem_cons_of_mem _ (List.mem_append.mpr (Or.inl hx)))
      · show LtOk _ (closeTagOf k)
        have hshape : closeTagOf k = '<' :: '/' :: k ++ '>' :: [] := rfl
        rw [hshape]
        exact LtOk.tagClose hmem hk .nil
      · exact (ltOk_entriesContent r hr).mono (fun x hx => by
          show x ∈ k :: (keysBelowV v ++ keysAllF r)
          exact List.mem_cons_of_mem _ (List.mem_append.mpr (Or.inr hx)))
end

/-- Helper: a run of name characters is consumed whole by takeWhile. -/
theorem takeWhile_isNameChar {k : List Char} (h : ∀ c ∈ k, isNameChar c = true) :
    k.takeWhile isNameChar = k := by
  induction k with
  | nil => rfl
  | cons c cs ih =>
      rw [List.takeWhile_cons, h c (List.mem_cons_self c cs)]
      simp only [if_true]
      rw [ih (fun x hx => h x (List.mem_cons_of_mem c hx))]

/-- Helper: a successful match attempt emits the triple and continues
after it. -/
theorem tagMatchesF_step {f : Nat} {c : Char} {cs n co rest : List Char}
    (h : matchAt (c :: cs) = some (n, co, rest)) :
    tagMatchesF (f + 1) (c :: cs) = (n, co) :: tagMatchesF f rest := by
  simp only [tagMatchesF, h]

/-- Helper: the exec loop over a serialized good entry list yields one
match per entry, carrying the raw key and the entry's inner content. -/
theorem tagMatchesF_entries : ∀ (fs : JFields) (fuel : Nat), goodF fs = true →
    (entriesContent fs).length < fuel →
    tagMatchesF fuel (entriesContent fs) = matchListF fs
  | .nil, fuel, _, hfuel => by
      match fuel, hfuel with
      | f + 1, _ => rfl
  | .cons k v r, fuel, h, hfuel => by
      obtain ⟨hk, hnotin, hv, hr⟩ := goodF_cons h
      obtain ⟨hne, hall⟩ := goodKey_facts hk
      have hgt : '>' ∉ k := (goodKey_chars hk).2.1
      have hname : ∀ c ∈ k, isNameChar c = true := (goodKey_chars hk).2.2.2
      rw [entriesContent_cons v r hk] at hfuel ⊢
      match fuel, hfuel with
      | f + 1, hfuel =>
          have hsplitgt : splitAtFirst ['>'] (k ++ '>' ::
              (innerContent v ++ closeTagOf k ++ entriesContent r))
              = some (k, innerContent v ++ closeTagOf k ++ entriesContent r) :=
            splitAtFirst_gt k _ hgt
          have hnotmem : k ∉ keysBelowV v := contains_false_not_mem hnotin
          have hsplitclose : splitAtFirst (closeTagOf k)
              (innerContent v ++ closeTagOf k ++ entriesContent r)
              = some (innerContent v, entriesContent r) :=
            splitAtFirst_closeTag hk hnotmem (ltOk_innerContent v hv) (entriesContent r)
          have hmatch : matchAt ('<' :: k ++ '>' ::
              (innerContent v ++ closeTagOf k ++ entriesContent r))
              = some (k, innerContent v, entriesContent r) := by
            show matchAt ('<' :: (k ++ '>' :: (innerContent v ++ closeTagOf k
              ++ entriesContent r))) = _
            simp only [matchAt, hsplitgt]
            rw [takeWhile_isNameChar hname]
            match k, hne, hsplitclose with
            | kc :: kcs, _, hsplitclose =>
                rw [if_neg (List.cons_ne_nil kc kcs)]
                show tryNames (kc :: kcs) _ (kcs.length + 1) = _
                simp only [tryNames]
                have htake : List.take (kcs.length + 1) (kc :: kcs) = kc :: kcs :=
                  List.take_length (kc :: kcs)
                rw [htake, hsplitclose]
          show tagMatchesF (f + 1) ('<' :: (k ++ '>' :: (innerContent v ++ closeTagOf k
            ++ entriesContent r))) = _
          refine (tagMatchesF_step hmatch).trans ?_
          rw [tagMatchesF_entries r f hr (by
            simp only [List.length_cons, List.length_append, closeTagOf] at hfuel
            omega)]
          rfl

/-- Helper: non-membership gives Bool non-containment. -/
theorem contains_false_of_not_mem {α : Type} [BEq α] [LawfulBEq α] {l : List α}
    {a : α} (h : a ∉ l) : l.contains a = false := by
  cases hc : l.contains a
  · rfl
  · exfalso
    apply h
    simpa [List.contains, List.elem_eq_mem] using hc

/-- Helper: appending the empty entry list is the identity. -/
theorem fAppend_nil_right : ∀ (a : JFields), fAppend a .nil = a
  | .nil => rfl
  | .cons k v r => by
      show JFields.cons k v (fAppend r .nil) = JFields.cons k v r
      rw [fAppend_nil_right r]

/-- Helper: entry-list concatenation is associative. -/
theorem fAppend_assoc : ∀ (a b c : JFields),
    fAppend (fAppend a b) c = fAppend a (fAppend b c)
  | .nil, _, _ => rfl
  | .cons k v r, b, c => by
      show JFields.cons k v (fAppend (fAppend r b) c)
          = JFields.cons k v (fAppend r (fAppend b c))
      rw [fAppend_assoc r b c]

/-- Helper: top keys of a concatenation. -/
theorem topKeysF_fAppend : ∀ (a b : JFields),
    topKeysF (fAppend a b) = topKeysF a ++ topKeysF b
  | .nil, _ => rfl
  | .cons k v r, b => by
      show k :: topKeysF (fAppend r b) = (k :: topKeysF r) ++ topKeysF b
      rw [topKeysF_fAppend r b]
      rfl

/-- Helper: inserting a fresh key appends the entry at the end. -/
theorem fInsert_fresh : ∀ (acc : JFields) (k : List Char) (v : JVal),
    k ∉ topKeysF acc → fInsert acc k v = fAppend acc (.cons k v .nil)
  | .nil, _, _, _ => rfl
  | .cons k2 v2 r, k, v, h => by
      have hne : k2 ≠ k := fun hh => h (by rw [← hh]; exact List.mem_cons_self _ _)
      show (if k2 = k then JFields.cons k2 v r else JFields.cons k2 v2 (fInsert r k v))
          = JFields.cons k2 v2 (fAppend r (.cons k v .nil))
      rw [if_neg hne, fInsert_fresh r k v (fun hm => h (List.mem_cons_of_mem k2 hm))]

/-- Helper: unpacked pairwise-distinctness of a key list. -/
theorem nodupKeys_cons {k : List Char} {ks : List (List Char)}
    (h : nodupKeys (k :: ks) = true) :
    ks.contains k = false ∧ nodupKeys ks = true := by
  simp only [nodupKeys, Bool.and_eq_true, Bool.not_eq_true'] at h
  exact h

/-- Helper: serialized good nonempty entry lists are nonempty. -/
theorem entriesContent_ne_nil : ∀ (fs : JFields), goodF fs = true → fs ≠ .nil →
    entriesContent fs ≠ []
  | .cons k v r, h, _ => by
      rw [entriesContent_cons v r (goodF_cons h).1]
      simp

/-- Helper: serialized good nonempty entry lists end with the closing
bracket. -/
theorem entriesContent_getLast : ∀ (fs : JFields), goodF fs = true → fs ≠ .nil →
    (entriesContent fs).getLast? = some '>'
  | .cons k v r, h, _ => by
      obtain ⟨hk, -, -, hr⟩ := goodF_cons h
      rw [entriesContent_cons v r hk]
      have hshape : '<' :: k ++ '>' :: (innerContent v ++ closeTagOf k ++ entriesContent r)
          = ('<' :: k ++ '>' :: innerContent v) ++ (closeTagOf k ++ entriesContent r) := by
        simp
      rw [hshape, List.getLast?_append_of_ne_nil _ (by simp [closeTagOf])]
      by_cases hrnil : r = JFields.nil
      · subst hrnil
        show (closeTagOf k ++ entriesContent JFields.nil).getLast? = some '>'
        have hnil : entriesContent JFields.nil = [] := rfl
        rw [hnil, List.append_nil]
        have hshape2 : closeTagOf k = ('<' :: '/' :: k) ++ ['>'] := by simp [closeTagOf]
        rw [hshape2, List.getLast?_concat]
      · rw [List.getLast?_append_of_ne_nil _ (entriesContent_ne_nil r hr hrnil)]
        exact entriesContent_getLast r hr hrnil

/-- Helper: serialized good nonempty entry lists are trim-stable. -/
theorem trim_entriesContent (fs : JFields) (h : goodF fs = true) (hne : fs ≠ .nil) :
    trimC (entriesContent fs) = entriesContent fs := by
  refine trimC_eq_self ?_ ?_
  · intro c hc
    match fs, hne with
    | .cons k v r, _ =>
        rw [entriesContent_cons v r (goodF_cons h).1] at hc
        simp only [List.cons_append, List.head?_cons, Option.some.injEq] at hc
        rw [← hc]
        decide
  · intro c hc
    rw [entriesContent_getLast fs h hne] at hc
    injection hc with hc2
    rw [← hc2]
    decide

/-- Helper: serialized good nonempty entry lists contain the opening
bracket. -/
theorem contains_entriesContent (fs : JFields) (h : goodF fs = true)
    (hne : fs ≠ .nil) : (entriesContent fs).contains '<' = true := by
  match fs, hne with
  | .cons k v r, _ =>
      rw [entriesContent_cons v r (goodF_cons h).1]
      exact contains_of_mem (List.mem_cons_self _ _)

/-- Helper: each scanner match value is decoded back to the original
entry value (given that strictly smaller serialized objects decode
correctly at the inner fuel). -/
theorem parse_value (f : Nat)
    (HP : ∀ fs2, goodV (.obj fs2) = true → (entriesContent fs2).length < f →
      parseElemF f (entriesContent fs2) = .obj fs2) :
    ∀ (v : JVal), goodV v = true → (innerContent v).length < f →
    (if (trimC (innerContent v)).contains '<' then parseElemF f (innerContent v)
      else coerce (trimC (innerContent v))) = v
  | .str s, hv, _ => by
      have h2 : goodStr s = true := by simpa [goodV] using hv
      have h3 := h2
      simp only [goodStr, Bool.and_eq_true, Bool.not_eq_true', decide_eq_true_eq] at h3
      show (if (trimC s).contains '<' then parseElemF f s else coerce (trimC s))
          = JVal.str s
      rw [h3.1.1.1.1, h3.1.1.1.2]
      simp only [Bool.false_eq_true, if_false]
      exact coerce_goodStr h2
  | .jbool true, _, _ => by
      have hcond : (trimC (innerContent (JVal.jbool true))).contains '<' = false := by
        decide
      rw [hcond]
      simp only [Bool.false_eq_true, if_false]
      decide
  | .jbool false, _, _ => by
      have hcond : (trimC (innerContent (JVal.jbool false))).contains '<' = false := by
        decide
      rw [hcond]
      simp only [Bool.false_eq_true, if_false]
      decide
  | .num rep, hv, _ => by
      have hn : isNumeric rep = true := by simpa [goodV] using hv
      obtain ⟨⟨c, cs, heq, hdig⟩, hchars⟩ := isNumeric_facts hn
      have htrim : trimC rep = rep := by
        refine trimC_eq_self ?_ ?_
        · intro x hx
          rw [heq] at hx
          simp only [List.head?_cons, Option.some.injEq] at hx
          subst hx
          exact (numeral_char_facts (Or.inl hdig)).2
        · intro x hx
          have hmem : x ∈ rep.getLast? := Option.mem_def.mpr hx
          obtain ⟨hne2, hxeq⟩ := List.mem_getLast?_eq_getLast hmem
          have hxm : x ∈ rep := by
            rw [hxeq]
            exact List.getLast_mem hne2
          exact (numeral_char_facts (hchars x hxm)).2
      have hlt : rep.contains '<' = false := contains_false_of_not_mem
        (fun hm => (numeral_char_facts (hchars _ hm)).1 rfl)
      show (if (trimC rep).contains '<' then parseElemF f rep else coerce (trimC rep))
          = JVal.num rep
      rw [htrim, hlt]
      simp only [Bool.false_eq_true, if_false]
      exact coerce_numeral hn
  | .obj fs2, hv, hlen => by
      obtain ⟨hne, hnodup, hgf⟩ := goodV_obj hv
      show (if (trimC (entriesContent fs2)).contains '<' then
          parseElemF f (entriesContent fs2) else coerce (trimC (entriesContent fs2))) = _
      rw [trim_entriesContent fs2 hgf hne, contains_entriesContent fs2 hgf hne]
      simp only [if_true]
      exact HP fs2 hv hlen

/-- Helper: the decode loop over the scanner matches of a serialized good
entry list rebuilds exactly those entries, appended to the accumulator. -/
theorem buildObjWith_entries (f : Nat)
    (HP : ∀ fs2, goodV (.obj fs2) = true → (entriesContent fs2).length < f →
      parseElemF f (entriesContent fs2) = .obj fs2) :
    ∀ (fs acc : JFields), goodF fs = true →
    nodupKeys (topKeysF fs) = true →
    (∀ k ∈ topKeysF fs, k ∉ topKeysF acc) →
    (entriesContent fs).length ≤ f →
    buildObjWith (parseElemF f) (matchListF fs) acc = fAppend acc fs
  | .nil, acc, _, _, _, _ => by
      show acc = fAppend acc .nil
      rw [fAppend_nil_right]
  | .cons k v r, acc, h, hnodup, hdisj, hlen => by
      obtain ⟨hk, hnotin, hv, hr⟩ := goodF_cons h
      have hklen : 1 ≤ k.length := by
        match k, (goodKey_facts hk).1 with
        | c :: cs, _ => simp
      have hlens : (entriesContent (.cons k v r)).length
          = (innerContent v).length + (entriesContent r).length + 2 * k.length + 5 := by
        rw [entriesContent_cons v r hk]
        simp [closeTagOf, List.length_append]
        omega
      rw [hlens] at hlen
      have hinner : (innerContent v).length < f := by omega
      have hrest : (entriesContent r).length ≤ f := by omega
      have hkfresh : k ∉ topKeysF acc := hdisj k (by
        show k ∈ k :: topKeysF r
        exact List.mem_cons_self _ _)
      have hnd := nodupKeys_cons (show nodupKeys (k :: topKeysF r) = true from hnodup)
      show buildObjWith (parseElemF f) (matchListF r)
          (fInsert acc k (if (trimC (innerContent v)).contains '<'
            then parseElemF f (innerContent v) else coerce (trimC (innerContent v)))) = _
      rw [parse_value f HP v hv hinner, fInsert_fresh acc k v hkfresh]
      rw [buildObjWith_entries f HP r (fAppend acc (.cons k v .nil)) hr hnd.2 (by
        intro k2 hk2
        rw [topKeysF_fAppend]
        intro hmem
        rcases List.mem_append.mp hmem with hm | hm
        · exact hdisj k2 (by
            show k2 ∈ k :: topKeysF r
            exact List.mem_cons_of_mem _ hk2) hm
        · have hkk : k2 = k := by simpa [topKeysF] using hm
          rw [hkk] at hk2
          exact absurd hk2 (contains_false_not_mem hnd.1)) hrest]
      rw [fAppend_assoc]
      rfl

/-- Helper: with enough fuel, decoding the serialized form of a good
object yields the object back. -/
theorem parse_entries : ∀ (f : Nat) (fs : JFields), goodV (.obj fs) = true →
    (entriesContent fs).length < f →
    parseElemF f (entriesContent fs) = .obj fs := by
  intro f
  induction f with
  | zero => intro fs _ hlen; omega
  | succ f ih =>
      intro fs hv hlen
      obtain ⟨hne, hnodup, hgf⟩ := goodV_obj hv
      have htrim := trim_entriesContent fs hgf hne
      have hcont := contains_entriesContent fs hgf hne
      have hms : tagMatches (entriesContent fs) = matchListF fs :=
        tagMatchesF_entries fs ((entriesContent fs).length + 1) hgf (Nat.lt_succ_self _)
      have hmsne : matchListF fs ≠ [] := by
        match fs, hne with
        | .cons k v r, _ => simp [matchListF]
      show (let content := trimC (entriesContent fs);
        if ¬ content.contains '<' then JVal.str content
        else
          let ms := tagMatches content
          if ms = [] then JVal.str content
          else JVal.obj (buildObjWith (parseElemF f) ms JFields.nil)) = JVal.obj fs
      simp only [htrim, hms, hcont, not_true, if_false, hmsne]
      rw [buildObjWith_entries f ih fs JFields.nil hgf hnodup (by simp [topKeysF])
        (by omega)]
      show JVal.obj fs = JVal.obj fs
      rfl

/-- C1, amended: the round trip holds for trees of nonempty plain-object
internal nodes with well-formed distinct sibling keys, where no key is
reused anywhere inside its own subtree, and whose leaves are booleans,
numerals matching the decoder's numeric pattern, or strings that are
trim-stable, free of the opening angle bracket, distinct from the boolean
words and not matching the numeric pattern: decoding the encoding of such
a tree reproduces it exactly. -/
theorem C1_roundtrip (fs : JFields) (h : goodV (.obj fs) = true) :
    xmlToObj (objToXmlTop (.obj fs)) = .obj fs := by
  obtain ⟨hne, -, -⟩ := goodV_obj h
  have henc : objToXmlTop (.obj fs) = entriesContent fs := by
    show objToXml (.obj fs) none = entriesContent fs
    simp [objToXml, hne]
  rw [henc]
  show parseElemF ((entriesContent fs).length + 1) (entriesContent fs) = JVal.obj fs
  exact parse_entries ((entriesContent fs).length + 1) fs h (Nat.lt_succ_self _)

/-- C1, witness: a two-level good tree with string, boolean and numeral
leaves. -/
theorem C1_roundtrip_witness :
    goodV (.obj (.cons "answer".toList (.str "Paris is the capital".toList)
      (.cons "meta".toList (.obj (.cons "ok".toList (.jbool true)
        (.cons "n".toList (.num "42".toList) .nil))) .nil))) = true ∧
    xmlToObj (objToXmlTop (.obj (.cons "answer".toList
        (.str "Paris is the capital".toList)
      (.cons "meta".toList (.obj (.cons "ok".toList (.jbool true)
        (.cons "n".toList (.num "42".toList) .nil))) .nil))))
      = .obj (.cons "answer".toList (.str "Paris is the capital".toList)
      (.cons "meta".toList (.obj (.cons "ok".toList (.jbool true)
        (.cons "n".toList (.num "42".toList) .nil))) .nil)) :=
  ⟨by decide, C1_roundtrip _ (by decide)⟩

end GXAI
